import Mathlib

/-!
Verification development for the cli-town-generator program (src/main.rs).

The Rust program deterministically generates a world of towns, buildings,
rooms, NPCs and containers, connects the towns with a weighted graph built
by a Kruskal-style union-find pass plus an extra-edge pass, and can export
and re-import the graph in a textual edge-list (DOT-like) format.

Modelling conventions (shallow embedding):
* Machine integers (`u32`, `u64`, `usize`) are modelled as `Nat`; where the
  Rust code can overflow or underflow, the two's-complement wrap is written
  explicitly (`% 2^32`, `% 2^64`).  `rand`'s `gen_range(lo..hi)` panics on
  an empty range; every draw is therefore `Option`-valued, `none` modelling
  the panic.
* `StdRng` (a deterministic ChaCha PRNG) is modelled abstractly as an
  infinite stream of naturals together with a cursor; `gen_range(lo..hi)`
  returns `lo + stream pos % (hi - lo)`, which is exactly the guarantee the
  claims rely on (a deterministic value in `[lo, hi)`).  The PRNG family is
  a parameter `g : Nat -> Nat -> Nat` (seed to stream), mirroring
  `StdRng::seed_from_u64`.
* File I/O is elided: word lists (`load_list`) are parameters, `save_graph`
  produces the output text, `load_dot` consumes input text.
* `IdTracker::get_new_id` contains an unbounded retry loop; it is modelled
  with explicit fuel, `none` modelling non-termination/exhaustion.
-/

/-- Mirrors struct `AppConfig` of main.rs (the string fields `seed`,
`input_dir`, `output_dir` only drive I/O and are elided). -/
structure AppConfig where
  num_of_towns : Nat
  num_of_connections : Nat
  min_distance : Nat
  max_distance : Nat
  cost : Nat
  min_id : Nat
  max_id : Nat
  min_buildings : Nat
  max_buildings : Nat
  min_npcs : Nat
  max_npcs : Nat
  min_rooms : Nat
  max_rooms : Nat
  min_containers : Nat
  max_containers : Nat
  deriving Repr, DecidableEq

/-- Abstract model of `rand::rngs::StdRng`: an infinite deterministic
stream of naturals with a cursor. -/
structure StdRng where
  stream : Nat → Nat
  pos : Nat

/-- One raw draw from the PRNG stream. -/
def StdRng.next (r : StdRng) : Nat × StdRng :=
  (r.stream r.pos, ⟨r.stream, r.pos + 1⟩)

/-- Mirrors `rng.gen_range(lo..hi)`: panics (`none`) on an empty range,
otherwise returns a value in `[lo, hi)`. -/
def StdRng.genRange (r : StdRng) (lo hi : Nat) : Option (Nat × StdRng) :=
  if lo < hi then
    let (k, r') := r.next
    some (lo + k % (hi - lo), r')
  else
    none

/-- Mirrors `StdRng::seed_from_u64 seed` for the abstract PRNG family `g`. -/
def StdRng.ofSeed (g : Nat → Nat → Nat) (seed : Nat) : StdRng :=
  ⟨g seed, 0⟩

/-- `u32` multiplication with two's-complement wrap (release-mode Rust). -/
def mul32 (a b : Nat) : Nat := a * b % 2 ^ 32

/-- `usize` subtraction with two's-complement wrap (release-mode Rust;
debug mode panics on underflow instead). -/
def wsub64 (a b : Nat) : Nat := (a + (2 ^ 64 - b % 2 ^ 64)) % 2 ^ 64

/-- Mirrors enum `BuildingType`. -/
inductive BuildingType where
  | Residence
  | Shop
  | Tavern
  | Temple
  deriving Repr, DecidableEq

/-- Mirrors enum `NpcSex`. -/
inductive NpcSex where
  | Male
  | Female
  | Unisex
  deriving Repr, DecidableEq

/-- Mirrors enum `NpcRace`. -/
inductive NpcRace where
  | Human
  | Elf
  deriving Repr, DecidableEq

/-- Mirrors enum `ContainerType`. -/
inductive ContainerType where
  | Barrel
  | Crate
  | Chest
  deriving Repr, DecidableEq

/-- Mirrors struct `Npc`. -/
structure Npc where
  id : Nat
  name : String
  sex : NpcSex
  race : NpcRace
  town_id : Nat
  building_id : Nat
  room_id : Option Nat
  deriving Repr, DecidableEq

/-- Mirrors struct `Container`. -/
structure Container where
  id : Nat
  container_type : ContainerType
  town_id : Nat
  building_id : Nat
  room_id : Nat
  deriving Repr, DecidableEq

/-- Mirrors struct `Room`. -/
structure Room where
  id : Nat
  town_id : Nat
  building_id : Nat
  npcs : List Npc
  containers : List Container
  deriving Repr, DecidableEq

/-- Mirrors struct `Building`. -/
structure Building where
  id : Nat
  name : String
  building_type : BuildingType
  town_id : Nat
  coords : Nat × Nat
  rooms : List Room
  deriving Repr, DecidableEq

/-- Mirrors struct `Town`. -/
structure Town where
  id : Nat
  name : String
  coords : Nat × Nat
  number_of_buildings : Nat
  buildings : List Building
  deriving Repr, DecidableEq

/-- Mirrors struct `JourneyInfo` (edge weight: distance and derived cost). -/
structure JourneyInfo where
  distance : Nat
  cost : Nat
  deriving Repr, DecidableEq

/-- Mirrors `petgraph::Graph<Town, JourneyInfo>`: nodes in insertion order,
edges in insertion order as (source index, target index, weight). -/
structure TownGraph where
  nodes : List Town
  edges : List (Nat × Nat × JourneyInfo)
  deriving Repr, DecidableEq

/-- Mirrors struct `World`: identifier-keyed indexes built from the town
tree (a `HashMap` in Rust; modelled as the association list produced in
collection order). -/
structure World where
  towns : List (Nat × Town)
  buildings : List (Nat × Building)
  rooms : List (Nat × Room)
  npcs : List (Nat × Npc)
  containers : List (Nat × Container)
  deriving Repr, DecidableEq

/-- Mirrors struct `IdTracker`: the set of already-issued ids plus a
dedicated PRNG (`IdTracker::new(seed)` seeds its own `StdRng`). -/
structure IdTracker where
  ids : Finset Nat
  rng : StdRng

/-- Mirrors `IdTracker::new(seed)`. -/
def IdTracker.new (g : Nat → Nat → Nat) (seed : Nat) : IdTracker :=
  ⟨∅, StdRng.ofSeed g seed⟩

/-- Mirrors `IdTracker::get_new_id`: draw a candidate in
`[min_id, max_id)`, redraw while it is already issued, then record and
return it.  The Rust loop is unbounded; `fuel` bounds the retries here and
`none` models divergence (and the `gen_range` panic when the id range is
empty). -/
def IdTracker.get_new_id : Nat → AppConfig → IdTracker → Option (Nat × IdTracker)
  | 0, _, _ => none
  | fuel + 1, cfg, tk =>
    match tk.rng.genRange cfg.min_id cfg.max_id with
    | none => none
    | some (i, r') =>
      if i ∈ tk.ids then IdTracker.get_new_id fuel cfg ⟨tk.ids, r'⟩
      else some (i, ⟨insert i tk.ids, r'⟩)

theorem StdRng.genRange_bounds {r r' : StdRng} {lo hi k : Nat}
    (h : r.genRange lo hi = some (k, r')) : lo ≤ k ∧ k < hi := by
  unfold StdRng.genRange at h
  split at h
  · next hlt =>
    simp only [StdRng.next, Option.some.injEq, Prod.mk.injEq] at h
    obtain ⟨hk, -⟩ := h
    subst hk
    constructor
    · omega
    · have : r.stream r.pos % (hi - lo) < hi - lo := Nat.mod_lt _ (by omega)
      omega
  · exact absurd h (by simp)

theorem StdRng.genRange_stream {r r' : StdRng} {lo hi k : Nat}
    (h : r.genRange lo hi = some (k, r')) : r'.stream = r.stream := by
  unfold StdRng.genRange at h
  split at h
  · simp only [StdRng.next, Option.some.injEq, Prod.mk.injEq] at h
    obtain ⟨-, h⟩ := h
    rw [← h]
  · exact absurd h (by simp)

/-- Core specification of `get_new_id`: on success the returned id is in
`[min_id, max_id)`, was never issued before by this tracker, and the
tracker records it (issuing only grows the issued set). -/
theorem IdTracker.get_new_id_spec {fuel : Nat} {cfg : AppConfig}
    {tk tk' : IdTracker} {i : Nat}
    (h : IdTracker.get_new_id fuel cfg tk = some (i, tk')) :
    (cfg.min_id ≤ i ∧ i < cfg.max_id) ∧ i ∉ tk.ids ∧
      tk'.ids = insert i tk.ids := by
  induction fuel generalizing tk with
  | zero => exact absurd h (by simp [IdTracker.get_new_id])
  | succ fuel ih =>
    unfold IdTracker.get_new_id at h
    cases hdraw : tk.rng.genRange cfg.min_id cfg.max_id with
    | none => rw [hdraw] at h; exact absurd h (by simp)
    | some p =>
      obtain ⟨k, r'⟩ := p
      rw [hdraw] at h
      simp only at h
      by_cases hmem : k ∈ tk.ids
      · rw [if_pos hmem] at h
        exact @ih ⟨tk.ids, r'⟩ h
      · rw [if_neg hmem] at h
        simp only [Option.some.injEq, Prod.mk.injEq] at h
        obtain ⟨rfl, rfl⟩ := h
        exact ⟨StdRng.genRange_bounds hdraw, hmem, rfl⟩

/-- The word lists that `load_list` reads from the input directory
(`load_list` itself is I/O and degrades to `["NO DATA"]` when a file is
missing; here the lists are parameters, per the spec's collaborator
contract). -/
structure WordLists where
  town_prefixes : List String
  town_roots : List String
  town_suffixes : List String
  surnames : List String
  shops : List String
  taverns : List String
  temples : List String
  names_male : List String
  names_female : List String
  names_unisex : List String

/-- Mirrors `building_name.split([' ', '\'']).next().unwrap()`: the token
before the first space or apostrophe (the whole string when neither
occurs). -/
def firstToken (s : String) : String :=
  String.mk (s.toList.takeWhile (fun c => !(c == ' ' || c == '\'')))

/-- Mirrors `generate_town_name`: three uniform index draws; a miss
(`.get` out of range, dead code since `gen_range(0..len)` panics on an
empty list first) degrades to "NO DATA". -/
def generate_town_name (rng : StdRng) (wl : WordLists) : Option (String × StdRng) :=
  match rng.genRange 0 wl.town_prefixes.length with
  | none => none
  | some (i, r1) =>
    let pre := (wl.town_prefixes.get? i).getD "NO DATA"
    match r1.genRange 0 wl.town_roots.length with
    | none => none
    | some (j, r2) =>
      let root := (wl.town_roots.get? j).getD "NO DATA"
      match r2.genRange 0 wl.town_suffixes.length with
      | none => none
      | some (k, r3) =>
        let sfx := (wl.town_suffixes.get? k).getD "NO DATA"
        some (pre ++ " " ++ root ++ sfx, r3)

/-- Mirrors `generate_building_name` (per-category templates). -/
def generate_building_name (rng : StdRng) (bt : BuildingType) (wl : WordLists) :
    Option (String × StdRng) :=
  match bt with
  | BuildingType.Residence =>
    match rng.genRange 0 wl.surnames.length with
    | none => none
    | some (i, r1) => some (((wl.surnames.get? i).getD "NO DATA") ++ " Residence", r1)
  | BuildingType.Shop =>
    match rng.genRange 0 wl.surnames.length with
    | none => none
    | some (i, r1) =>
      match r1.genRange 0 wl.shops.length with
      | none => none
      | some (j, r2) =>
        some (((wl.surnames.get? i).getD "NO DATA") ++ String.singleton '\'' ++ "s "
          ++ ((wl.shops.get? j).getD "NO DATA"), r2)
  | BuildingType.Tavern =>
    match rng.genRange 0 wl.taverns.length with
    | none => none
    | some (i, r1) => some ((wl.taverns.get? i).getD "NO DATA", r1)
  | BuildingType.Temple =>
    match rng.genRange 0 wl.temples.length with
    | none => none
    | some (i, r1) => some ("Temple of the " ++ ((wl.temples.get? i).getD "NO DATA"), r1)

/-- Mirrors `generate_npc_name`: a first name drawn by sex, then a surname
rule per building category. -/
def generate_npc_name (rng : StdRng) (building_name : String) (bt : BuildingType)
    (sex : NpcSex) (wl : WordLists) : Option (String × StdRng) :=
  let firstList :=
    match sex with
    | NpcSex.Male => wl.names_male
    | NpcSex.Female => wl.names_female
    | NpcSex.Unisex => wl.names_unisex
  match rng.genRange 0 firstList.length with
  | none => none
  | some (i, r1) =>
    let firstname := (firstList.get? i).getD "NO DATA"
    match bt with
    | BuildingType.Residence => some (firstname ++ " " ++ firstToken building_name, r1)
    | BuildingType.Shop => some (firstname ++ " " ++ firstToken building_name, r1)
    | BuildingType.Tavern =>
      match r1.genRange 0 wl.surnames.length with
      | none => none
      | some (j, r2) => some (firstname ++ " " ++ ((wl.surnames.get? j).getD "NO DATA"), r2)
    | BuildingType.Temple => some (firstname ++ " of the " ++ building_name, r1)

/-- The per-NPC body of the `for _ in 0..number_of_npcs` loop of
`generate_npcs`: id, sex (`0..NpcSex::COUNT`), race (`0..NpcRace::COUNT`),
name. -/
def npcsLoop (fuel : Nat) (cfg : AppConfig) (wl : WordLists) (town_id building_id : Nat)
    (building_name : String) (bt : BuildingType) :
    Nat → StdRng → IdTracker → Option (List Npc × StdRng × IdTracker)
  | 0, rng, tk => some ([], rng, tk)
  | n + 1, rng, tk =>
    match IdTracker.get_new_id fuel cfg tk with
    | none => none
    | some (npc_id, tk1) =>
      match rng.genRange 0 3 with
      | none => none
      | some (ks, r1) =>
        let sex := if ks = 0 then NpcSex.Male
          else if ks = 1 then NpcSex.Female else NpcSex.Unisex
        match r1.genRange 0 2 with
        | none => none
        | some (kr, r2) =>
          let race := if kr = 0 then NpcRace.Human
            else if kr = 1 then NpcRace.Elf else NpcRace.Human
          match generate_npc_name r2 building_name bt sex wl with
          | none => none
          | some (nm, r3) =>
            match npcsLoop fuel cfg wl town_id building_id building_name bt n r3 tk1 with
            | none => none
            | some (rest, r4, tk2) =>
              some (⟨npc_id, nm, sex, race, town_id, building_id, none⟩ :: rest, r4, tk2)

/-- Mirrors `generate_npcs`: the inhabitant count is 1 for a Shop, 2 for a
Residence, and a draw from `[min_npcs, max_npcs)` otherwise. -/
def generate_npcs (fuel : Nat) (cfg : AppConfig) (wl : WordLists) (rng : StdRng)
    (tk : IdTracker) (town_id building_id : Nat) (building_name : String)
    (bt : BuildingType) : Option (List Npc × StdRng × IdTracker) :=
  match bt with
  | BuildingType.Shop => npcsLoop fuel cfg wl town_id building_id building_name bt 1 rng tk
  | BuildingType.Residence => npcsLoop fuel cfg wl town_id building_id building_name bt 2 rng tk
  | _ =>
    match rng.genRange cfg.min_npcs cfg.max_npcs with
    | none => none
    | some (n, r1) => npcsLoop fuel cfg wl town_id building_id building_name bt n r1 tk

/-- The per-container body of the loop in `generate_containers`
(`0..ContainerType::COUNT` maps 0/1/2 to Barrel/Crate/Chest, default
Barrel). -/
def containersLoop (fuel : Nat) (cfg : AppConfig) (town_id building_id room_id : Nat) :
    Nat → StdRng → IdTracker → Option (List Container × StdRng × IdTracker)
  | 0, rng, tk => some ([], rng, tk)
  | n + 1, rng, tk =>
    match IdTracker.get_new_id fuel cfg tk with
    | none => none
    | some (cid, tk1) =>
      match rng.genRange 0 3 with
      | none => none
      | some (kt, r1) =>
        let ct := if kt = 0 then ContainerType.Barrel
          else if kt = 1 then ContainerType.Crate
          else if kt = 2 then ContainerType.Chest else ContainerType.Barrel
        match containersLoop fuel cfg town_id building_id room_id n r1 tk1 with
        | none => none
        | some (rest, r2, tk2) =>
          some (⟨cid, ct, town_id, building_id, room_id⟩ :: rest, r2, tk2)

/-- Mirrors `generate_containers`: draws a count from
`[min_containers, max_containers)` (panic — `none` — when the range is
empty), then generates that many containers. -/
def generate_containers (fuel : Nat) (cfg : AppConfig) (rng : StdRng) (tk : IdTracker)
    (town_id building_id room_id : Nat) : Option (List Container × StdRng × IdTracker) :=
  match rng.genRange cfg.min_containers cfg.max_containers with
  | none => none
  | some (n, r1) => containersLoop fuel cfg town_id building_id room_id n r1 tk

/-- The per-room body of the first loop of `generate_rooms`: each room is
created with no NPCs and freshly generated containers. -/
def roomsLoop (fuel : Nat) (cfg : AppConfig) (town_id building_id : Nat) :
    Nat → StdRng → IdTracker → Option (List Room × StdRng × IdTracker)
  | 0, rng, tk => some ([], rng, tk)
  | n + 1, rng, tk =>
    match IdTracker.get_new_id fuel cfg tk with
    | none => none
    | some (room_id, tk1) =>
      match generate_containers fuel cfg rng tk1 town_id building_id room_id with
      | none => none
      | some (cs, r1, tk2) =>
        match roomsLoop fuel cfg town_id building_id n r1 tk2 with
        | none => none
        | some (rest, r2, tk3) =>
          some (⟨room_id, town_id, building_id, [], cs⟩ :: rest, r2, tk3)

/-- Appends `npc` to the npc list of the room at index `idx` (mirrors
`room.npcs.push(npc)` on the room chosen by `choose_mut`). -/
def addNpcAt : Nat → Npc → List Room → List Room
  | _, _, [] => []
  | 0, npc, room :: rest => { room with npcs := room.npcs ++ [npc] } :: rest
  | k + 1, npc, room :: rest => room :: addNpcAt k npc rest

/-- Models `npcs.shuffle(rng)`: a seeded random permutation (repeatedly
extract the element at a drawn index).  `rand`'s Fisher-Yates uses
in-place swaps; which permutation a given stream produces is immaterial
here — only that the result is a permutation driven solely by the PRNG. -/
def shuffleList : Nat → StdRng → List Npc → List Npc × StdRng
  | 0, rng, l => (l, rng)
  | f + 1, rng, l =>
    match l with
    | [] => ([], rng)
    | _ :: _ =>
      let (k, r1) := rng.next
      let idx := k % l.length
      match l.get? idx with
      | some x =>
        let (rest, r2) := shuffleList f r1 (l.eraseIdx idx)
        (x :: rest, r2)
      | none => (l, r1)

/-- Mirrors the `for mut npc in npcs.drain(..)` loop of `generate_rooms`:
each NPC independently picks a uniformly random room (`choose_mut`), gets
its `room_id` set and is pushed there; with no rooms, `choose_mut` returns
`None` and the NPC is silently dropped (no draw is consumed). -/
def assignNpcs : List Npc → List Room → StdRng → List Room × StdRng
  | [], rooms, rng => (rooms, rng)
  | npc :: rest, rooms, rng =>
    match rooms with
    | [] => assignNpcs rest rooms rng
    | _ :: _ =>
      let (k, r1) := rng.next
      let idx := k % rooms.length
      match rooms.get? idx with
      | some room => assignNpcs rest (addNpcAt idx { npc with room_id := some room.id } rooms) r1
      | none => assignNpcs rest rooms r1

/-- Mirrors `generate_rooms`: draw a room count from
`[min_rooms, max_rooms)`, build the rooms (with containers), then shuffle
the building's NPCs and distribute them over the rooms. -/
def generate_rooms (fuel : Nat) (cfg : AppConfig) (rng : StdRng) (tk : IdTracker)
    (town_id building_id : Nat) (npcs : List Npc) :
    Option (List Room × StdRng × IdTracker) :=
  match rng.genRange cfg.min_rooms cfg.max_rooms with
  | none => none
  | some (n, r1) =>
    match roomsLoop fuel cfg town_id building_id n r1 tk with
    | none => none
    | some (rooms, r2, tk1) =>
      let (shuffled, r3) := shuffleList npcs.length r2 npcs
      let (rooms', r4) := assignNpcs shuffled rooms r3
      some (rooms', r4, tk1)

/-- Models `(number_of_buildings as f32).sqrt().ceil() as u32` exactly on
naturals (f32 is exact on the relevant small counts). -/
def ceilSqrt (n : Nat) : Nat :=
  if Nat.sqrt n * Nat.sqrt n = n then Nat.sqrt n else Nat.sqrt n + 1

/-- The per-building body of `generate_buildings`: id, a category drawn
from `0..BuildingType::COUNT` (0/1/2/3 to Residence/Shop/Tavern/Temple,
default Residence), name, NPCs, rooms, then the row-major grid-position
update. -/
def buildingsLoop (fuel : Nat) (cfg : AppConfig) (wl : WordLists) (town_id grid_size : Nat) :
    Nat → Nat × Nat → StdRng → IdTracker → Option (List Building × StdRng × IdTracker)
  | 0, _, rng, tk => some ([], rng, tk)
  | n + 1, pos, rng, tk =>
    match IdTracker.get_new_id fuel cfg tk with
    | none => none
    | some (bid, tk1) =>
      match rng.genRange 0 4 with
      | none => none
      | some (kt, r1) =>
        let bt := if kt = 0 then BuildingType.Residence
          else if kt = 1 then BuildingType.Shop
          else if kt = 2 then BuildingType.Tavern
          else if kt = 3 then BuildingType.Temple else BuildingType.Residence
        match generate_building_name r1 bt wl with
        | none => none
        | some (bname, r2) =>
          match generate_npcs fuel cfg wl r2 tk1 town_id bid bname bt with
          | none => none
          | some (npcs, r3, tk2) =>
            match generate_rooms fuel cfg r3 tk2 town_id bid npcs with
            | none => none
            | some (rooms, r4, tk3) =>
              let newpos := if pos.1 + 1 ≥ grid_size then (0, pos.2 + 1)
                else (pos.1 + 1, pos.2)
              match buildingsLoop fuel cfg wl town_id grid_size n newpos r4 tk3 with
              | none => none
              | some (rest, r5, tk4) =>
                some (⟨bid, bname, bt, town_id, pos, rooms⟩ :: rest, r5, tk4)

/-- Mirrors `generate_buildings`. -/
def generate_buildings (fuel : Nat) (cfg : AppConfig) (wl : WordLists) (rng : StdRng)
    (tk : IdTracker) (town_id number_of_buildings : Nat) :
    Option (List Building × StdRng × IdTracker) :=
  buildingsLoop fuel cfg wl town_id (ceilSqrt number_of_buildings) number_of_buildings
    (0, 0) rng tk

/-- `tuple_combinations` over the node list `0, ..., n-1`: every unordered
pair `(i, j)` with `i < j < n`, in lexicographic enumeration order. -/
def allPairs (n : Nat) : List (Nat × Nat) :=
  (List.range n).flatMap (fun i => (List.range' (i + 1) (n - (i + 1))).map (fun j => (i, j)))

/-- The distance draw of `generate_graph`: one
`gen_range(min_distance..max_distance)` per pair, in enumeration order. -/
def drawDists (cfg : AppConfig) : List (Nat × Nat) → StdRng → Option (List (Nat × Nat × Nat) × StdRng)
  | [], rng => some ([], rng)
  | (i, j) :: ps, rng =>
    match rng.genRange cfg.min_distance cfg.max_distance with
    | none => none
    | some (d, r1) =>
      match drawDists cfg ps r1 with
      | none => none
      | some (rest, r2) => some ((i, j, d) :: rest, r2)

/-- Models `town_pairs.sort_unstable_by_key(|&(_, _, dist)| dist)`
(insertion sort — the sortedness by distance is what matters; the Rust
sort is unstable, so ties may come out in any order there). -/
def sortPairs (l : List (Nat × Nat × Nat)) : List (Nat × Nat × Nat) :=
  List.insertionSort (fun a b => a.2.2 ≤ b.2.2) l

/-- Builds the edge added for a drawn pair:
`JourneyInfo { distance, cost: settings.cost * distance }` (u32 wrap). -/
def mkEdge (cfg : AppConfig) (p : Nat × Nat × Nat) : Nat × Nat × JourneyInfo :=
  (p.1, p.2.1, ⟨p.2.2, mul32 cfg.cost p.2.2⟩)

/-- The union-find scan of `generate_graph` (its first `for` loop): for
each pair in sorted order, if the endpoints' classes differ, merge them
and add the edge.  The union-find is modelled as its `find` function
(`petgraph::UnionFind` picks representatives by rank; the class partition
is the same).  Returns the added edges, the final find function, and
`edges_added`. -/
def spanPass (cfg : AppConfig) :
    List (Nat × Nat × Nat) → (Nat → Nat) →
      List (Nat × Nat × JourneyInfo) × (Nat → Nat) × Nat
  | [], uf => ([], uf, 0)
  | (i, j, d) :: rest, uf =>
    if uf i = uf j then spanPass cfg rest uf
    else
      let (es, ufF, c) := spanPass cfg rest (fun z => if uf z = uf j then uf i else uf z)
      (mkEdge cfg (i, j, d) :: es, ufF, c + 1)

/-- The second `for` loop of `generate_graph`: iterate over the sorted
pairs after positionally skipping the first `edges_added` of them, adding
each unconditionally, `take`-bounded by
`num_of_connections as usize - edges_added`. -/
def extraPass (cfg : AppConfig) : List (Nat × Nat × Nat) → Nat → List (Nat × Nat × JourneyInfo)
  | _, 0 => []
  | [], _ + 1 => []
  | p :: rest, k + 1 => mkEdge cfg p :: extraPass cfg rest k

/-- Mirrors `generate_graph`: nodes are the towns in order (node index =
position, the `node_map` lookup table is the identity), distances are
drawn per pair, pairs are sorted by distance, then the union-find spanning
scan runs, then the positional extra-edge pass.  The `usize` subtraction
in the `take` count wraps (release mode; debug mode panics when
`num_of_connections < edges_added`). -/
def generate_graph (cfg : AppConfig) (rng : StdRng) (towns : List Town) :
    Option (TownGraph × List Nat × StdRng) :=
  let n := towns.length
  match drawDists cfg (allPairs n) rng with
  | none => none
  | some (pairs, r1) =>
    let sorted := sortPairs pairs
    let (spanEdges, _, edges_added) := spanPass cfg sorted id
    let extra := extraPass cfg (sorted.drop edges_added)
      (wsub64 cfg.num_of_connections edges_added)
    some (⟨towns, spanEdges ++ extra⟩, List.range n, r1)

/-- The per-town body of `generate_towns`: id, building count from
`[min_buildings, max_buildings)`, buildings, then the town name. -/
def townsLoop (fuel : Nat) (cfg : AppConfig) (wl : WordLists) :
    Nat → StdRng → IdTracker → Option (List Town × StdRng × IdTracker)
  | 0, rng, tk => some ([], rng, tk)
  | n + 1, rng, tk =>
    match IdTracker.get_new_id fuel cfg tk with
    | none => none
    | some (tid, tk1) =>
      match rng.genRange cfg.min_buildings cfg.max_buildings with
      | none => none
      | some (nb, r1) =>
        match generate_buildings fuel cfg wl r1 tk1 tid nb with
        | none => none
        | some (bs, r2, tk2) =>
          match generate_town_name r2 wl with
          | none => none
          | some (tname, r3) =>
            match townsLoop fuel cfg wl n r3 tk2 with
            | none => none
            | some (rest, r4, tk3) =>
              some (⟨tid, tname, (0, 0), nb, bs⟩ :: rest, r4, tk3)

/-- Mirrors `generate_towns`: generate the towns, build the graph, and
return the town list read back from the graph's nodes
(`nodes.iter().map(|&node| graph[node].clone())`). -/
def generate_towns (fuel : Nat) (cfg : AppConfig) (wl : WordLists) (rng : StdRng)
    (tk : IdTracker) : Option (TownGraph × List Town × StdRng × IdTracker) :=
  match townsLoop fuel cfg wl cfg.num_of_towns rng tk with
  | none => none
  | some (towns, r1, tk1) =>
    match generate_graph cfg r1 towns with
    | none => none
    | some (graph, nodes, r2) =>
      some (graph, nodes.filterMap graph.nodes.get?, r2, tk1)

/-- The `World` index construction of `generate_world` (lines 264-315):
five identifier-keyed maps collected by flattening the town tree. -/
def mkWorld (towns : List Town) : World :=
  { towns := towns.map (fun t => (t.id, t))
    buildings := towns.flatMap (fun t => t.buildings.map (fun b => (b.id, b)))
    rooms := towns.flatMap (fun t => t.buildings.flatMap
      (fun b => b.rooms.map (fun r => (r.id, r))))
    npcs := towns.flatMap (fun t => t.buildings.flatMap
      (fun b => b.rooms.flatMap (fun r => r.npcs.map (fun np => (np.id, np)))))
    containers := towns.flatMap (fun t => t.buildings.flatMap
      (fun b => b.rooms.flatMap (fun r => r.containers.map (fun c => (c.id, c))))) }

/-- Mirrors `generate_world`: both the structural PRNG and the id
tracker's PRNG are seeded from the same derived seed, the towns and graph
are generated, and the world index is built. -/
def generate_world (fuel : Nat) (cfg : AppConfig) (wl : WordLists) (g : Nat → Nat → Nat)
    (seed : Nat) : Option (TownGraph × List Town × World) :=
  match generate_towns fuel cfg wl (StdRng.ofSeed g seed) (IdTracker.new g seed) with
  | none => none
  | some (graph, towns, _, _) => some (graph, towns, mkWorld towns)

/-! ### Seed derivation (`seed_from_word`)

`DefaultHasher::new()` is SipHash-1-3 with both keys fixed to zero, and
`str::hash` feeds the UTF-8 bytes of the string followed by a single
`0xff` byte; `finish` applies the standard SipHash padding (message length
modulo 256 in the top byte of the last block).  The whole computation is a
pure function of the input string. -/

/-- 64-bit left rotation. -/
def rotl64 (x n : Nat) : Nat := ((x <<< n) % 2 ^ 64) ||| (x >>> (64 - n))

/-- One SipHash round on the four 64-bit state words. -/
def sipRound : Nat × Nat × Nat × Nat → Nat × Nat × Nat × Nat
  | (v0, v1, v2, v3) =>
    let v0 := (v0 + v1) % 2 ^ 64
    let v1 := rotl64 v1 13
    let v1 := v1 ^^^ v0
    let v0 := rotl64 v0 32
    let v2 := (v2 + v3) % 2 ^ 64
    let v3 := rotl64 v3 16
    let v3 := v3 ^^^ v2
    let v0 := (v0 + v3) % 2 ^ 64
    let v3 := rotl64 v3 21
    let v3 := v3 ^^^ v0
    let v2 := (v2 + v1) % 2 ^ 64
    let v1 := rotl64 v1 17
    let v1 := v1 ^^^ v2
    let v2 := rotl64 v2 32
    (v0, v1, v2, v3)

/-- Little-endian value of up to eight bytes. -/
def le8 (bs : List Nat) : Nat := bs.foldr (fun b acc => acc * 256 + b % 256) 0

/-- SipHash-1-3 compression over the byte stream plus finalization
(`len` is the total message length, used for the padding byte). -/
def sipBlocks (len : Nat) : Nat × Nat × Nat × Nat → List Nat → Nat
  | st, b0 :: b1 :: b2 :: b3 :: b4 :: b5 :: b6 :: b7 :: rest =>
    let m := le8 [b0, b1, b2, b3, b4, b5, b6, b7]
    let (v0, v1, v2, v3) := st
    let (w0, w1, w2, w3) := sipRound (v0, v1, v2, v3 ^^^ m)
    sipBlocks len (w0 ^^^ m, w1, w2, w3) rest
  | (v0, v1, v2, v3), rest =>
    let m := le8 rest + len % 256 * 2 ^ 56
    let (w0, w1, w2, w3) := sipRound (v0, v1, v2, v3 ^^^ m)
    let (u0, u1, u2, u3) := sipRound (sipRound (sipRound (w0 ^^^ m, w1, w2 ^^^ 0xff, w3)))
    u0 ^^^ u1 ^^^ u2 ^^^ u3

/-- Mirrors `seed_from_word`: the 64-bit SipHash-1-3 (keys 0, 0) of the
string's UTF-8 bytes followed by `0xff`. -/
def seed_from_word (w : String) : Nat :=
  let msg := w.toUTF8.toList.map (fun b => b.toNat) ++ [0xff]
  sipBlocks msg.length
    (0x736f6d6570736575, 0x646f72616e646f6d, 0x6c7967656e657261, 0x7465646279746573) msg

/-! ### Graph codec (`save_graph`, `load_dot`, `parse_edge_line`,
`JourneyInfo::from_label`)

Text is modelled as `List Char`; file I/O is elided (export produces the
text, import consumes it). -/

/-- ASCII view of `char::is_whitespace` (the characters `str::trim` strips
in the format at hand). -/
def isWsChar (c : Char) : Bool := c == ' ' || c == '\t' || c == '\n' || c == '\r'

/-- Mirrors `str::trim`. -/
def trimChars (l : List Char) : List Char :=
  ((l.dropWhile isWsChar).reverse.dropWhile isWsChar).reverse

/-- Mirrors `str::trim_matches('"')`: strips all leading and trailing
double quotes. -/
def trimQuotes (l : List Char) : List Char :=
  ((l.dropWhile (· == '"')).reverse.dropWhile (· == '"')).reverse

/-- Worker for `splitDD` (accumulator holds the current chunk reversed). -/
def splitDDAux : List Char → List Char → List (List Char)
  | acc, [] => [acc.reverse]
  | acc, [c] => [(c :: acc).reverse]
  | acc, c1 :: c2 :: rest =>
    if c1 = '-' ∧ c2 = '-' then acc.reverse :: splitDDAux [] rest
    else splitDDAux (c1 :: acc) (c2 :: rest)

/-- Mirrors `str::split("--")`. -/
def splitDD (l : List Char) : List (List Char) := splitDDAux [] l

/-- Worker for `splitSlash`. -/
def splitSlashAux : List Char → List Char → List (List Char)
  | acc, [] => [acc.reverse]
  | acc, c :: rest =>
    if c = '/' then acc.reverse :: splitSlashAux [] rest
    else splitSlashAux (c :: acc) rest

/-- Mirrors `str::split("/")`. -/
def splitSlash (l : List Char) : List (List Char) := splitSlashAux [] l

/-- Does the list contain two adjacent dashes (mirrors
`line.contains("--")`)? -/
def hasDD : List Char → Bool
  | [] => false
  | [_] => false
  | c1 :: c2 :: rest => (c1 = '-' && c2 = '-') || hasDD (c2 :: rest)

/-- Does the list start with `[label=` ? -/
def isLabelEqHead : List Char → Bool
  | '[' :: 'l' :: 'a' :: 'b' :: 'e' :: 'l' :: '=' :: _ => true
  | _ => false

/-- Mirrors `line.contains("[label=")`. -/
def containsLabelEq : List Char → Bool
  | [] => false
  | c :: rest => isLabelEqHead (c :: rest) || containsLabelEq rest

/-- Does the list start with `label="` ? -/
def isLabelQuoteHead : List Char → Bool
  | 'l' :: 'a' :: 'b' :: 'e' :: 'l' :: '=' :: '"' :: _ => true
  | _ => false

/-- Mirrors `target_and_label.find("label=\"")` followed by `+ 7`: the
suffix just after the first occurrence of `label="` (`none` when there is
no occurrence). -/
def afterLabelQuote : List Char → Option (List Char)
  | [] => none
  | c :: rest =>
    if isLabelQuoteHead (c :: rest) then some ((c :: rest).drop 7)
    else afterLabelQuote rest

/-- Mirrors `parse_edge_line`: returns (source, target, label) for a
well-formed edge line, `None` otherwise. -/
def parse_edge_line (line0 : List Char) : Option (List Char × List Char × List Char) :=
  let line := trimChars line0
  if (match line with | '"' :: _ => true | _ => false)
      && hasDD line && containsLabelEq line then
    match splitDD line with
    | [p0, p1] =>
      let source := trimQuotes (trimChars p0)
      let tal := trimChars p1
      if '[' ∈ tal then
        let target := trimQuotes (trimChars (tal.takeWhile (fun c => !(c == '['))))
        match afterLabelQuote tal with
        | none => none
        | some afterL =>
          if '"' ∈ afterL then
            some (source, target, trimChars (afterL.takeWhile (fun c => !(c == '"'))))
          else none
      else none
    | _ => none
  else none

/-- First `split_whitespace` token (`None` when the input is all
whitespace). -/
def firstWsToken (l : List Char) : Option (List Char) :=
  let t := (l.dropWhile isWsChar).takeWhile (fun c => !isWsChar c)
  if t.isEmpty then none else some t

/-- Mirrors `str::parse::<u32>`: an optional `+` sign, one or more ASCII
digits, value within `u32` range. -/
def parseU32 (l : List Char) : Option Nat :=
  let ds := if l.head? = some '+' then l.tail else l
  if ds ≠ [] ∧ ds.all (·.isDigit) then
    let v := ds.foldl (fun acc c => acc * 10 + (c.toNat - 48)) 0
    if v < 2 ^ 32 then some v else none
  else none

/-- Mirrors `JourneyInfo::from_label`: split the label on `/`, trim both
halves, and parse the first whitespace token of each as distance and
cost. -/
def JourneyInfo.from_label (label : List Char) : Option JourneyInfo :=
  match (splitSlash label).map trimChars with
  | [p0, p1] =>
    match firstWsToken p0, firstWsToken p1 with
    | some t0, some t1 =>
      match parseU32 t0, parseU32 t1 with
      | some d, some c => some ⟨d, c⟩
      | _, _ => none
    | _, _ => none
  | _ => none

/-- One decimal digit character. -/
def digitChar : Nat → Char
  | 0 => '0'
  | 1 => '1'
  | 2 => '2'
  | 3 => '3'
  | 4 => '4'
  | 5 => '5'
  | 6 => '6'
  | 7 => '7'
  | 8 => '8'
  | 9 => '9'
  | _ => '*'

/-- Decimal representation of a natural (what `format!` prints for the
`u32` distance and cost fields), most significant digit first. -/
def toDec (n : Nat) : List Char :=
  if _h : n < 10 then [digitChar n]
  else toDec (n / 10) ++ [digitChar (n % 10)]
decreasing_by exact Nat.div_lt_self (by omega) (by omega)

/-- One edge line of `save_graph`'s output:
four spaces, the quoted names, the label and the `len` attribute. -/
def formatEdgeLine (sname tname : List Char) (d c : Nat) : List Char :=
  "    \"".toList ++ sname ++ "\" -- \"".toList ++ tname ++ "\" [label=\"".toList
    ++ toDec d ++ " m / ".toList ++ toDec c ++ " gold\", len=".toList
    ++ toDec (d / 10) ++ "];".toList

/-- Mirrors `save_graph` (the text it writes): a header line, one line per
edge in edge insertion order, and a closing brace line. -/
def save_graph (g : TownGraph) : List Char :=
  "graph Towns \x7b\n".toList
    ++ g.edges.flatMap (fun e =>
        formatEdgeLine (((g.nodes.get? e.1).map (fun t => t.name.toList)).getD [])
          (((g.nodes.get? e.2.1).map (fun t => t.name.toList)).getD [])
          e.2.2.distance e.2.2.cost ++ ['\n'])
    ++ "\x7d\n".toList

/-- Strip one trailing carriage return (as `str::lines` does per line). -/
def stripCR (l : List Char) : List Char :=
  match l.getLast? with
  | some '\r' => l.dropLast
  | _ => l

/-- Worker for `splitLines`. -/
def splitLinesAux : List Char → List Char → List (List Char)
  | acc, [] => if acc.isEmpty then [] else [stripCR acc.reverse]
  | acc, c :: rest =>
    if c = '\n' then stripCR acc.reverse :: splitLinesAux [] rest
    else splitLinesAux (c :: acc) rest

/-- Mirrors `str::lines` (used by `load_dot` via `file_content.lines()`). -/
def splitLines (l : List Char) : List (List Char) := splitLinesAux [] l

/-- Mirrors `node_indices.entry(name).or_insert_with(add_node)`: look the
name up, appending a fresh node for it when absent; returns the node
list and the index. -/
def registerNode : List (List Char) → List Char → List (List Char) × Nat
  | [], nm => ([nm], 0)
  | x :: rest, nm =>
    if x = nm then (x :: rest, 0)
    else
      let (rest', i) := registerNode rest nm
      (x :: rest', i + 1)

/-- The line loop of `load_dot`: nodes are registered on first mention
(source before target) even when the label later fails to parse; an edge
is recorded only when `JourneyInfo::from_label` succeeds. -/
def loadDotLoop : List (List Char) → List (List Char) → List (Nat × Nat × JourneyInfo) →
    List (List Char) × List (Nat × Nat × JourneyInfo)
  | [], names, edges => (names, edges)
  | line :: rest, names, edges =>
    match parse_edge_line line with
    | none => loadDotLoop rest names edges
    | some (s, t, label) =>
      let (names1, si) := registerNode names s
      let (names2, ti) := registerNode names1 t
      match JourneyInfo.from_label label with
      | none => loadDotLoop rest names2 edges
      | some ji => loadDotLoop rest names2 (edges ++ [(si, ti, ji)])

/-- Mirrors `load_dot` on the file text: the raw imported graph as the
node-name list (insertion order) and the edge list. -/
def load_dot (text : List Char) : List (List Char) × List (Nat × Nat × JourneyInfo) :=
  loadDotLoop (splitLines text) [] []

/-! ### Shared concrete fixtures for witnesses and counterexamples -/

/-- The identity PRNG stream family used to instantiate the abstract
PRNG at concrete inputs. -/
def idFam : Nat → Nat → Nat := fun _ i => i

/-- A concrete PRNG state over the identity stream. -/
def rng0 : StdRng := ⟨fun i => i, 0⟩

/-- A fresh tracker over the identity stream. -/
def tk0 : IdTracker := ⟨∅, rng0⟩

/-- Singleton word lists for concrete runs. -/
def wl1 : WordLists :=
  ⟨["Pre"], ["Root"], ["ton"], ["Smith"], ["Bakery"], ["Inn"], ["Sun"],
    ["Bob"], ["Ann"], ["Sam"]⟩

/-- A bare town used as a vertex in concrete graph runs. -/
def mkTown (i : Nat) : Town := ⟨i, "T", (0, 0), 0, []⟩

/-- A baseline configuration (the crate's defaults for the ranges used
here, with small id/town counts for concrete evaluation). -/
def baseCfg : AppConfig :=
  { num_of_towns := 1, num_of_connections := 0, min_distance := 10, max_distance := 100,
    cost := 5, min_id := 0, max_id := 100, min_buildings := 1, max_buildings := 2,
    min_npcs := 2, max_npcs := 10, min_rooms := 1, max_rooms := 2,
    min_containers := 0, max_containers := 1 }

/-! ### C3 — determinism -/

/-- C3: for every seed phrase and configuration, two runs of the pipeline
on the same phrase produce identical results: `seed_from_word` is a
deterministic function of the input string (SipHash-1-3 of its bytes) and
`generate_world` is a pure function of (settings, seed), the only
randomness being the PRNG stream derived from the seed. -/
theorem c3_determinism (fuel : Nat) (cfg : AppConfig) (wl : WordLists)
    (g : Nat → Nat → Nat) (w1 w2 : String) (h : w1 = w2) :
    seed_from_word w1 = seed_from_word w2 ∧
      generate_world fuel cfg wl g (seed_from_word w1)
        = generate_world fuel cfg wl g (seed_from_word w2) := by
  subst h
  exact ⟨rfl, rfl⟩

/-- C3 witness: the two runs coincide at the concrete phrase "Generate". -/
theorem c3_determinism_witness :
    seed_from_word "Generate" = seed_from_word "Generate" ∧
      generate_world 1 baseCfg wl1 idFam (seed_from_word "Generate")
        = generate_world 1 baseCfg wl1 idFam (seed_from_word "Generate") :=
  c3_determinism 1 baseCfg wl1 idFam "Generate" "Generate" rfl

/-! ### Edge shape lemmas (used by C9 and others) -/

theorem spanPass_mem {cfg : AppConfig} :
    ∀ {l : List (Nat × Nat × Nat)} {uf : Nat → Nat} {e : Nat × Nat × JourneyInfo},
      e ∈ (spanPass cfg l uf).1 → ∃ p ∈ l, e = mkEdge cfg p := by
  intro l
  induction l with
  | nil => intro uf e h; simp [spanPass] at h
  | cons p rest ih =>
    intro uf e h
    obtain ⟨i, j, d⟩ := p
    rw [spanPass] at h
    by_cases hc : uf i = uf j
    · rw [if_pos hc] at h
      obtain ⟨q, hq, he⟩ := ih h
      exact ⟨q, List.mem_cons_of_mem _ hq, he⟩
    · rw [if_neg hc] at h
      simp only at h
      rcases List.mem_cons.mp h with he | hmem
      · exact ⟨(i, j, d), List.mem_cons_self _ _, he⟩
      · obtain ⟨q, hq, he⟩ := ih hmem
        exact ⟨q, List.mem_cons_of_mem _ hq, he⟩

theorem extraPass_mem {cfg : AppConfig} :
    ∀ {l : List (Nat × Nat × Nat)} {k : Nat} {e : Nat × Nat × JourneyInfo},
      e ∈ extraPass cfg l k → ∃ p ∈ l, e = mkEdge cfg p := by
  intro l
  induction l with
  | nil => intro k e h; cases k <;> simp [extraPass] at h
  | cons p rest ih =>
    intro k e h
    cases k with
    | zero => simp [extraPass] at h
    | succ k =>
      rw [extraPass] at h
      rcases List.mem_cons.mp h with he | hmem
      · exact ⟨p, List.mem_cons_self _ _, he⟩
      · obtain ⟨q, hq, he⟩ := ih hmem
        exact ⟨q, List.mem_cons_of_mem _ hq, he⟩

/-- Every edge the graph builder emits is `mkEdge` of one of the drawn
pairs: its weight is `{distance := d, cost := mul32 cfg.cost d}`. -/
theorem generate_graph_edge_shape {cfg : AppConfig} {rng r' : StdRng}
    {towns : List Town} {g : TownGraph} {ns : List Nat}
    (h : generate_graph cfg rng towns = some (g, ns, r')) :
    ∀ e ∈ g.edges, e.2.2.cost = mul32 cfg.cost e.2.2.distance := by
  intro e he
  simp only [generate_graph] at h
  cases hdraw : drawDists cfg (allPairs towns.length) rng with
  | none => rw [hdraw] at h; exact absurd h (by simp)
  | some pr =>
    obtain ⟨pairs, r1⟩ := pr
    rw [hdraw] at h
    simp only [Option.some.injEq, Prod.mk.injEq] at h
    obtain ⟨hg, -, -⟩ := h
    rw [← hg] at he
    simp only at he
    rcases List.mem_append.mp he with hs | hx
    · obtain ⟨p, -, hep⟩ := spanPass_mem hs
      rw [hep]; rfl
    · obtain ⟨p, -, hep⟩ := extraPass_mem hx
      rw [hep]; rfl

/-! ### C9 — edge cost law -/

/-- Configuration exhibiting `u32` overflow in the cost product. -/
def c9cfg : AppConfig :=
  { baseCfg with
    num_of_towns := 2
    num_of_connections := 1
    min_distance := 2
    max_distance := 3
    cost := 2 ^ 31 }

/-- C9 counterexample: with cost multiplier `2^31` and a drawn distance of
2, the emitted edge's cost is `(2^31 * 2) mod 2^32 = 0`, not the exact
product `distance * cost_multiplier = 2^32` — the claim's exact equality
fails (in a debug build the Rust multiplication panics instead). -/
theorem c9_counterexample :
    ∃ g ns r', generate_graph c9cfg rng0 [mkTown 0, mkTown 1] = some (g, ns, r') ∧
      ∃ e ∈ g.edges, e.2.2.cost ≠ e.2.2.distance * c9cfg.cost := by
  refine ⟨_, _, _, rfl, (0, 1, ⟨2, 0⟩), ?_, ?_⟩
  · decide
  · decide

/-- C9 (amended): for every edge of the generated graph, the cost is the
`u32`-wrapped product `(cost_multiplier * distance) mod 2^32`; whenever
that product is below `2^32` (in particular for all default-sized
configurations) the cost equals `distance * cost_multiplier` exactly and
is an exact integer multiple of the distance.  Distances and costs are
naturals (non-negative) by the `u32` typing. -/
theorem c9_cost_law {cfg : AppConfig} {rng r' : StdRng} {towns : List Town}
    {g : TownGraph} {ns : List Nat}
    (h : generate_graph cfg rng towns = some (g, ns, r')) :
    ∀ e ∈ g.edges,
      e.2.2.cost = cfg.cost * e.2.2.distance % 2 ^ 32 ∧
        (cfg.cost * e.2.2.distance < 2 ^ 32 →
          e.2.2.cost = e.2.2.distance * cfg.cost ∧ e.2.2.distance ∣ e.2.2.cost) := by
  intro e he
  have hshape := generate_graph_edge_shape h e he
  rw [mul32] at hshape
  refine ⟨hshape, fun hlt => ?_⟩
  rw [hshape, Nat.mod_eq_of_lt hlt]
  exact ⟨Nat.mul_comm _ _, dvd_mul_left _ _⟩

/-- C9 witness: a concrete successful two-town run on which the amended
cost law evaluates at the single drawn edge (distance 10, cost 50). -/
theorem c9_cost_law_witness :
    ((0, 1, (⟨10, 50⟩ : JourneyInfo))
        ∈ (TownGraph.mk [mkTown 0, mkTown 1] [(0, 1, ⟨10, 50⟩)]).edges) ∧
      (50 : Nat) = baseCfg.cost * 10 % 2 ^ 32 ∧
      (baseCfg.cost * 10 < 2 ^ 32 → (50 : Nat) = 10 * baseCfg.cost ∧ (10 : Nat) ∣ 50) :=
  ⟨by decide,
    c9_cost_law (show generate_graph baseCfg rng0 [mkTown 0, mkTown 1]
        = some (⟨[mkTown 0, mkTown 1], [(0, 1, ⟨10, 50⟩)]⟩, [0, 1], ⟨rng0.stream, 1⟩) from rfl)
      (0, 1, ⟨10, 50⟩) (by decide)⟩

/-! ### C7 — edge-budget edge cases -/

/-- Configuration with `num_of_connections` strictly below
`town_count - 1`. -/
def c7cfg : AppConfig :=
  { baseCfg with
    num_of_towns := 3
    num_of_connections := 1 }

/-- C7 failing input: three towns and `num_of_connections = 1`.  The
spanning scan adds 2 edges, and `num_of_connections as usize - edges_added`
(`1 - 2` on `usize`) wraps to `2^64 - 1` (release) or panics (debug), so
the extra pass adds every remaining pair instead of nothing: the graph
ends with 3 edges, not the claimed 2. -/
theorem c7_underflow_adds_extra_edges :
    ∃ g ns r', generate_graph c7cfg rng0 [mkTown 0, mkTown 1, mkTown 2] = some (g, ns, r') ∧
      g.edges.length = 3 ∧ c7cfg.num_of_connections ≤ 3 - 1 := by
  exact ⟨_, _, _, rfl, rfl, by decide⟩

/-! ### C8 — degenerate count ranges -/

/-- Configuration with an empty container range
(`min_containers = max_containers = 0`). -/
def c8cfgE : AppConfig :=
  { baseCfg with
    min_containers := 0
    max_containers := 0 }

/-- C8 counterexample: with `min_containers = max_containers = 0`,
`generate_containers` does not produce zero containers — the
`gen_range(0..0)` draw on the empty range fails (panics in Rust), so the
generation call fails. -/
theorem c8_empty_range_fails :
    generate_containers 1 c8cfgE rng0 tk0 1 2 3 = none := rfl

/-- C8 (amended): a draw over an empty count range makes the generation
call fail (`gen_range` panics on empty ranges) rather than yielding zero
items; zero containers for every room in every run is instead what any
configuration with `min_containers = 0, max_containers = 1` produces
(the drawn count is always 0). -/
theorem c8_empty_range_behavior (fuel : Nat) (cfg : AppConfig) (rng : StdRng)
    (tk : IdTracker) (t b r : Nat) :
    (cfg.min_containers = cfg.max_containers →
      generate_containers fuel cfg rng tk t b r = none) ∧
    (cfg.min_containers = 0 → cfg.max_containers = 1 →
      ∃ r', generate_containers fuel cfg rng tk t b r = some ([], r', tk)) := by
  constructor
  · intro heq
    unfold generate_containers StdRng.genRange
    rw [heq]
    simp
  · intro h0 h1
    refine ⟨⟨rng.stream, rng.pos + 1⟩, ?_⟩
    unfold generate_containers StdRng.genRange
    rw [h0, h1]
    simp [StdRng.next, Nat.mod_one, containersLoop]

/-- C8 witness: the amended behavior at concrete inputs — the empty range
`[0, 0)` fails, the degenerate range `[0, 1)` yields zero containers. -/
theorem c8_empty_range_behavior_witness :
    (generate_containers 2 c8cfgE rng0 tk0 1 2 3 = none) ∧
      ∃ r', generate_containers 2 baseCfg rng0 tk0 1 2 3 = some ([], r', tk0) :=
  ⟨(c8_empty_range_behavior 2 c8cfgE rng0 tk0 1 2 3).1 rfl,
    (c8_empty_range_behavior 2 baseCfg rng0 tk0 1 2 3).2 rfl rfl⟩

/-! ### C1 — connectivity of the spanning scan

`Reach es x y` is reachability between vertices over the undirected edge
list `es` (reflexive-transitive closure of "some edge joins them"). -/

/-- Reachability over an undirected edge list. -/
inductive Reach (es : List (Nat × Nat × JourneyInfo)) : Nat → Nat → Prop
  | refl (x : Nat) : Reach es x x
  | step {x y z : Nat} {ji : JourneyInfo} (hxy : Reach es x y)
      (h : (y, z, ji) ∈ es ∨ (z, y, ji) ∈ es) : Reach es x z

theorem Reach.mono {es es' : List (Nat × Nat × JourneyInfo)} {x y : Nat}
    (hsub : ∀ e, e ∈ es → e ∈ es') (h : Reach es x y) : Reach es' x y := by
  induction h with
  | refl => exact Reach.refl _
  | step hxy hedge ih =>
    exact Reach.step ih (hedge.imp (fun he => hsub _ he) (fun he => hsub _ he))

theorem Reach.trans {es : List (Nat × Nat × JourneyInfo)} {x y z : Nat}
    (h1 : Reach es x y) (h2 : Reach es y z) : Reach es x z := by
  induction h2 with
  | refl => exact h1
  | step hxy hedge ih => exact Reach.step ih hedge

theorem Reach.single {es : List (Nat × Nat × JourneyInfo)} {x y : Nat} {ji : JourneyInfo}
    (h : (x, y, ji) ∈ es ∨ (y, x, ji) ∈ es) : Reach es x y :=
  Reach.step (Reach.refl x) h

theorem Reach.symm {es : List (Nat × Nat × JourneyInfo)} {x y : Nat}
    (h : Reach es x y) : Reach es y x := by
  induction h with
  | refl => exact Reach.refl _
  | step hxy hedge ih =>
    exact Reach.trans (Reach.single (hedge.symm)) ih

/-- Unfolding equation for the cons case of `spanPass`. -/
theorem spanPass_cons (cfg : AppConfig) (i j d : Nat) (rest : List (Nat × Nat × Nat))
    (uf : Nat → Nat) :
    spanPass cfg ((i, j, d) :: rest) uf =
      if uf i = uf j then spanPass cfg rest uf
      else
        ((mkEdge cfg (i, j, d)) ::
            (spanPass cfg rest (fun z => if uf z = uf j then uf i else uf z)).1,
          (spanPass cfg rest (fun z => if uf z = uf j then uf i else uf z)).2.1,
          (spanPass cfg rest (fun z => if uf z = uf j then uf i else uf z)).2.2 + 1) := by
  rw [spanPass]

/-- The spanning scan only ever merges classes: vertices in one class stay
in one class. -/
theorem spanPass_uf_eq_mono {cfg : AppConfig} :
    ∀ {l : List (Nat × Nat × Nat)} {uf : Nat → Nat} {x y : Nat},
      uf x = uf y → (spanPass cfg l uf).2.1 x = (spanPass cfg l uf).2.1 y := by
  intro l
  induction l with
  | nil => intro uf x y h; simpa [spanPass] using h
  | cons p rest ih =>
    intro uf x y h
    obtain ⟨i, j, d⟩ := p
    rw [spanPass_cons]
    split
    · exact ih h
    · simp only
      exact ih (by simp only [h])

/-- After the scan has processed a pair, its endpoints are in the same
class. -/
theorem spanPass_pair_eq {cfg : AppConfig} :
    ∀ {l : List (Nat × Nat × Nat)} {uf : Nat → Nat} {i j d : Nat},
      (i, j, d) ∈ l → (spanPass cfg l uf).2.1 i = (spanPass cfg l uf).2.1 j := by
  intro l
  induction l with
  | nil => intro uf i j d h; simp at h
  | cons p rest ih =>
    intro uf i j d h
    obtain ⟨i', j', d'⟩ := p
    rcases List.mem_cons.mp h with he | hmem
    · simp only [Prod.mk.injEq] at he
      obtain ⟨rfl, rfl, rfl⟩ := he
      rw [spanPass_cons]
      split
      · next heq => exact spanPass_uf_eq_mono heq
      · next hne =>
        simp only
        refine spanPass_uf_eq_mono ?_
        simp
    · rw [spanPass_cons]
      split
      · exact ih hmem
      · simp only
        exact ih hmem

/-- Classes of the scan's union-find are connected by the added edges:
if two vertices end in one class, the emitted spanning edges (on top of
any ambient edge set the pre-existing classes were connected by) link
them. -/
theorem spanPass_reach {cfg : AppConfig} :
    ∀ {l : List (Nat × Nat × Nat)} {uf : Nat → Nat}
      {E0 : List (Nat × Nat × JourneyInfo)},
      (∀ x y, uf x = uf y → Reach E0 x y) →
      ∀ x y, (spanPass cfg l uf).2.1 x = (spanPass cfg l uf).2.1 y →
        Reach (E0 ++ (spanPass cfg l uf).1) x y := by
  intro l
  induction l with
  | nil =>
    intro uf E0 hinv x y h
    rw [spanPass] at h ⊢
    simpa using hinv x y h
  | cons p rest ih =>
    intro uf E0 hinv x y h
    obtain ⟨i, j, d⟩ := p
    rw [spanPass_cons] at h ⊢
    by_cases hc : uf i = uf j
    · rw [if_pos hc] at h ⊢
      exact ih hinv x y h
    · rw [if_neg hc] at h ⊢
      simp only at h ⊢
      have hinv' : ∀ x y, (if uf x = uf j then uf i else uf x)
          = (if uf y = uf j then uf i else uf y) →
          Reach (E0 ++ [mkEdge cfg (i, j, d)]) x y := by
        intro a b hab
        have hsub : ∀ e, e ∈ E0 → e ∈ E0 ++ [mkEdge cfg (i, j, d)] :=
          fun e he => List.mem_append_left _ he
        have hedge : Reach (E0 ++ [mkEdge cfg (i, j, d)]) i j :=
          Reach.single (Or.inl (List.mem_append_right _ (List.mem_singleton.mpr rfl)))
        by_cases ha : uf a = uf j <;> by_cases hb : uf b = uf j
        · exact Reach.mono hsub (hinv a b (ha.trans hb.symm))
        · rw [if_pos ha, if_neg hb] at hab
          exact Reach.trans (Reach.mono hsub (hinv a j ha))
            (Reach.trans hedge.symm (Reach.mono hsub (hinv i b hab)))
        · rw [if_neg ha, if_pos hb] at hab
          exact Reach.trans (Reach.mono hsub (hinv a i hab))
            (Reach.trans hedge (Reach.mono hsub (hinv j b hb.symm)))
        · rw [if_neg ha, if_neg hb] at hab
          exact Reach.mono hsub (hinv a b hab)
      have := ih hinv' x y h
      rw [List.append_assoc] at this
      simpa using this

/-- The scan's edge counter equals the number of emitted edges. -/
theorem spanPass_length {cfg : AppConfig} :
    ∀ {l : List (Nat × Nat × Nat)} {uf : Nat → Nat},
      (spanPass cfg l uf).1.length = (spanPass cfg l uf).2.2 := by
  intro l
  induction l with
  | nil => intro uf; simp [spanPass]
  | cons p rest ih =>
    intro uf
    obtain ⟨i, j, d⟩ := p
    rw [spanPass_cons]
    split
    · exact ih
    · simp only [List.length_cons]
      rw [ih]

/-- Each accepted union merges two distinct classes, so the class count
drops by exactly the number of accepted edges. -/
theorem spanPass_count {cfg : AppConfig} {n : Nat} :
    ∀ {l : List (Nat × Nat × Nat)} {uf : Nat → Nat},
      (∀ p ∈ l, p.1 < n ∧ p.2.1 < n) →
      ((Finset.range n).image (spanPass cfg l uf).2.1).card + (spanPass cfg l uf).2.2
        = ((Finset.range n).image uf).card := by
  intro l
  induction l with
  | nil => intro uf _; simp [spanPass]
  | cons p rest ih =>
    intro uf hbounds
    obtain ⟨i, j, d⟩ := p
    have hi : i < n := (hbounds _ (List.mem_cons_self _ _)).1
    have hj : j < n := (hbounds _ (List.mem_cons_self _ _)).2
    have hrest : ∀ p ∈ rest, p.1 < n ∧ p.2.1 < n :=
      fun p hp => hbounds p (List.mem_cons_of_mem _ hp)
    rw [spanPass_cons]
    split
    · exact ih hrest
    · next hne =>
      simp only
      have himg : (Finset.range n).image (fun z => if uf z = uf j then uf i else uf z)
          = ((Finset.range n).image uf).erase (uf j) := by
        ext a
        constructor
        · intro ha
          obtain ⟨z, hz, hza⟩ := Finset.mem_image.mp ha
          by_cases hzj : uf z = uf j
          · rw [if_pos hzj] at hza
            subst hza
            exact Finset.mem_erase.mpr ⟨hne, Finset.mem_image.mpr
              ⟨i, Finset.mem_range.mpr hi, rfl⟩⟩
          · rw [if_neg hzj] at hza
            subst hza
            exact Finset.mem_erase.mpr ⟨hzj, Finset.mem_image.mpr ⟨z, hz, rfl⟩⟩
        · intro ha
          obtain ⟨hanej, hmem⟩ := Finset.mem_erase.mp ha
          obtain ⟨z, hz, hza⟩ := Finset.mem_image.mp hmem
          refine Finset.mem_image.mpr ⟨z, hz, ?_⟩
          rw [if_neg (by rw [hza]; exact hanej)]
          exact hza
      have hjmem : uf j ∈ (Finset.range n).image uf :=
        Finset.mem_image.mpr ⟨j, Finset.mem_range.mpr hj, rfl⟩
      have hcard : (((Finset.range n).image uf).erase (uf j)).card
          = ((Finset.range n).image uf).card - 1 :=
        Finset.card_erase_of_mem hjmem
      have hpos : 1 ≤ ((Finset.range n).image uf).card :=
        Finset.card_pos.mpr ⟨uf j, hjmem⟩
      have := @ih (fun z => if uf z = uf j then uf i else uf z) hrest
      rw [himg, hcard] at this
      omega

/-- Membership in the pair enumeration. -/
theorem mem_allPairs {n i j : Nat} : (i, j) ∈ allPairs n ↔ i < j ∧ j < n := by
  unfold allPairs
  constructor
  · intro h
    obtain ⟨a, ha, hmem⟩ := List.mem_flatMap.mp h
    obtain ⟨b, hb, hba⟩ := List.mem_map.mp hmem
    simp only [Prod.mk.injEq] at hba
    obtain ⟨rfl, rfl⟩ := hba
    have h1 := List.mem_range.mp ha
    have h2 := List.mem_range'_1.mp hb
    omega
  · intro ⟨hij, hjn⟩
    refine List.mem_flatMap.mpr ⟨i, List.mem_range.mpr (by omega), ?_⟩
    refine List.mem_map.mpr ⟨j, List.mem_range'_1.mpr ⟨by omega, by omega⟩, rfl⟩

/-- `drawDists` attaches a distance to each enumerated pair, preserving
the pair components and order. -/
theorem drawDists_fst {cfg : AppConfig} :
    ∀ {ps : List (Nat × Nat)} {rng r' : StdRng} {l : List (Nat × Nat × Nat)},
      drawDists cfg ps rng = some (l, r') → l.map (fun p => (p.1, p.2.1)) = ps := by
  intro ps
  induction ps with
  | nil =>
    intro rng r' l h
    simp only [drawDists, Option.some.injEq, Prod.mk.injEq] at h
    rw [← h.1]
    rfl
  | cons p rest ih =>
    intro rng r' l h
    obtain ⟨i, j⟩ := p
    rw [drawDists] at h
    cases hdraw : rng.genRange cfg.min_distance cfg.max_distance with
    | none => rw [hdraw] at h; exact absurd h (by simp)
    | some dr =>
      obtain ⟨d, r1⟩ := dr
      rw [hdraw] at h
      simp only at h
      cases hrest : drawDists cfg rest r1 with
      | none => rw [hrest] at h; exact absurd h (by simp)
      | some pr =>
        obtain ⟨l', r2⟩ := pr
        rw [hrest] at h
        simp only [Option.some.injEq, Prod.mk.injEq] at h
        rw [← h.1]
        simp only [List.map_cons]
        rw [ih hrest]

/-- C1: for every configuration and PRNG state, whenever `generate_graph`
succeeds on a nonempty town list, the union-find scan over the
distance-sorted pairs accepts exactly `town_count - 1` spanning edges
(counter and emitted-edge count alike), and the resulting graph has one
connected component spanning all towns: every two town indices are joined
by a path through the emitted edges.  This holds for any drawn distances
and any tie order among equal distances. -/
theorem c1_spanning_connected {cfg : AppConfig} {rng r' : StdRng}
    {towns : List Town} {g : TownGraph} {ns : List Nat}
    (h : generate_graph cfg rng towns = some (g, ns, r')) (hne : towns ≠ []) :
    ∃ pairs r1, drawDists cfg (allPairs towns.length) rng = some (pairs, r1) ∧
      (spanPass cfg (sortPairs pairs) id).1.length = towns.length - 1 ∧
      (spanPass cfg (sortPairs pairs) id).2.2 = towns.length - 1 ∧
      ∀ x y, x < towns.length → y < towns.length → Reach g.edges x y := by
  simp only [generate_graph] at h
  cases hdraw : drawDists cfg (allPairs towns.length) rng with
  | none => rw [hdraw] at h; exact absurd h (by simp)
  | some pr =>
  obtain ⟨pairs, r1⟩ := pr
  rw [hdraw] at h
  simp only [Option.some.injEq, Prod.mk.injEq] at h
  obtain ⟨hg, -, -⟩ := h
  have hn : 0 < towns.length := List.length_pos.mpr hne
  have hfst := drawDists_fst hdraw
  -- bounds of the sorted pairs
  have hbounds : ∀ p ∈ sortPairs pairs, p.1 < towns.length ∧ p.2.1 < towns.length := by
    intro p hp
    have hp' : p ∈ pairs := (List.perm_insertionSort _ pairs).mem_iff.mp hp
    have : (p.1, p.2.1) ∈ allPairs towns.length := by
      rw [← hfst]
      exact List.mem_map.mpr ⟨p, hp', rfl⟩
    have := mem_allPairs.mp this
    omega
  -- completeness: every unordered pair occurs in the sorted list
  have hcomplete : ∀ x y, x < y → y < towns.length →
      ∃ d, (x, y, d) ∈ sortPairs pairs := by
    intro x y hxy hyn
    have hmem : (x, y) ∈ allPairs towns.length := mem_allPairs.mpr ⟨hxy, hyn⟩
    rw [← hfst] at hmem
    obtain ⟨p, hp, hpe⟩ := List.mem_map.mp hmem
    obtain ⟨a, b, c⟩ := p
    simp only [Prod.mk.injEq] at hpe
    obtain ⟨rfl, rfl⟩ := hpe
    exact ⟨c, (List.perm_insertionSort _ pairs).mem_iff.mpr hp⟩
  -- all vertices end in one union-find class
  have hall : ∀ x y, x < towns.length → y < towns.length →
      (spanPass cfg (sortPairs pairs) id).2.1 x
        = (spanPass cfg (sortPairs pairs) id).2.1 y := by
    intro x y hx hy
    rcases Nat.lt_trichotomy x y with hlt | heq | hgt
    · obtain ⟨d, hd⟩ := hcomplete x y hlt hy
      exact spanPass_pair_eq hd
    · rw [heq]
    · obtain ⟨d, hd⟩ := hcomplete y x hgt hx
      exact (spanPass_pair_eq hd).symm
  -- the final class count is 1, so the counter is town_count - 1
  have hcount := @spanPass_count cfg towns.length (sortPairs pairs) id hbounds
  have himg : (Finset.range towns.length).image (spanPass cfg (sortPairs pairs) id).2.1
      = {(spanPass cfg (sortPairs pairs) id).2.1 0} := by
    ext a
    simp only [Finset.mem_image, Finset.mem_range, Finset.mem_singleton]
    constructor
    · intro ⟨z, hz, hza⟩
      rw [← hza]
      exact hall z 0 hz hn
    · intro ha
      exact ⟨0, hn, ha.symm⟩
  rw [himg, Finset.card_singleton, Finset.image_id, Finset.card_range] at hcount
  have hc : (spanPass cfg (sortPairs pairs) id).2.2 = towns.length - 1 := by omega
  refine ⟨pairs, r1, rfl, ?_, hc, ?_⟩
  · rw [spanPass_length, hc]
  · intro x y hx hy
    have hreach := @spanPass_reach cfg (sortPairs pairs) id []
      (fun a b hab => by simp at hab; rw [hab]; exact Reach.refl b)
      x y (hall x y hx hy)
    rw [List.nil_append] at hreach
    refine Reach.mono (fun e he => ?_) hreach
    rw [← hg]
    exact List.mem_append_left _ he

/-- C1 witness: a concrete two-town run — one spanning edge is accepted
and both towns are connected. -/
theorem c1_spanning_connected_witness :
    ∃ pairs r1, drawDists baseCfg (allPairs ([mkTown 0, mkTown 1]).length) rng0
        = some (pairs, r1) ∧
      (spanPass baseCfg (sortPairs pairs) id).1.length = ([mkTown 0, mkTown 1]).length - 1 ∧
      (spanPass baseCfg (sortPairs pairs) id).2.2 = ([mkTown 0, mkTown 1]).length - 1 ∧
      ∀ x y, x < ([mkTown 0, mkTown 1]).length → y < ([mkTown 0, mkTown 1]).length →
        Reach (TownGraph.mk [mkTown 0, mkTown 1] [(0, 1, ⟨10, 50⟩)]).edges x y :=
  c1_spanning_connected
    (show generate_graph baseCfg rng0 [mkTown 0, mkTown 1]
      = some (⟨[mkTown 0, mkTown 1], [(0, 1, ⟨10, 50⟩)]⟩, [0, 1], ⟨rng0.stream, 1⟩) from rfl)
    (by simp)

/-! ### C2 — what the extra-edge pass adds -/

/-- The extra pass is exactly a positional `take` of the pair list it is
given, mapped through the edge builder. -/
theorem extraPass_take {cfg : AppConfig} :
    ∀ (l : List (Nat × Nat × Nat)) (k : Nat),
      extraPass cfg l k = (l.take k).map (mkEdge cfg) := by
  intro l
  induction l with
  | nil => intro k; cases k <;> rfl
  | cons p rest ih =>
    intro k
    cases k with
    | zero => rfl
    | succ k => rw [extraPass, ih, List.take_succ_cons, List.map_cons]

/-- The spanning scan never emits an edge between vertices that are
already in one class. -/
theorem spanPass_not_mem {cfg : AppConfig} :
    ∀ {l : List (Nat × Nat × Nat)} {uf : Nat → Nat} {x y : Nat} {ji : JourneyInfo},
      uf x = uf y → (x, y, ji) ∉ (spanPass cfg l uf).1 := by
  intro l
  induction l with
  | nil => intro uf x y ji _ hmem; simp [spanPass] at hmem
  | cons p rest ih =>
    intro uf x y ji hxy hmem
    obtain ⟨i, j, d⟩ := p
    rw [spanPass_cons] at hmem
    split at hmem
    · exact ih hxy hmem
    · next hne =>
      simp only at hmem
      rcases List.mem_cons.mp hmem with he | hm
      · simp only [mkEdge, Prod.mk.injEq] at he
        obtain ⟨rfl, rfl, -⟩ := he
        exact hne hxy
      · exact ih (by simp only [hxy]) hm

/-- The spanning scan emits each unordered pair at most once (its own
edges are never parallel). -/
theorem spanPass_pairs_nodup {cfg : AppConfig} :
    ∀ {l : List (Nat × Nat × Nat)} {uf : Nat → Nat},
      ((spanPass cfg l uf).1.map (fun e => (e.1, e.2.1))).Nodup := by
  intro l
  induction l with
  | nil => intro uf; simp [spanPass]
  | cons p rest ih =>
    intro uf
    obtain ⟨i, j, d⟩ := p
    rw [spanPass_cons]
    split
    · exact ih
    · next hne =>
      simp only [List.map_cons]
      refine List.nodup_cons.mpr ⟨?_, ih⟩
      intro hmem
      obtain ⟨e, he, hep⟩ := List.mem_map.mp hmem
      obtain ⟨a, b, ji⟩ := e
      simp only [mkEdge, Prod.mk.injEq] at hep
      obtain ⟨rfl, rfl⟩ := hep
      exact @spanPass_not_mem cfg rest (fun z => if uf z = uf b then uf a else uf z)
        a b ji (by simp) he

/-- C2 counterexample: a four-town run in which the union-find scan's
accepted pairs are not an initial segment of the sorted order: the
positional `skip(edges_added)` then re-adds the accepted pair `(0, 3)`,
so the final graph contains two parallel `(0, 3)` edges — refuting both
"the extra pass adds exactly the rejected pairs" and "no unordered town
pair appears as two parallel edges". -/
theorem c2_counterexample :
    ∃ g ns r', generate_graph
        { baseCfg with
          num_of_towns := 4
          num_of_connections := 4
          min_distance := 1
          max_distance := 101 }
        ⟨fun i => [0, 1, 3, 2, 4, 5].getD i 0, 0⟩
        [mkTown 0, mkTown 1, mkTown 2, mkTown 3] = some (g, ns, r') ∧
      ¬ (g.edges.map (fun e => (e.1, e.2.1))).Nodup := by
  refine ⟨_, _, _, rfl, ?_⟩
  decide

/-- C2 (amended): the extra-edge pass adds exactly the pairs at sorted
positions `edges_added` and beyond (a positional skip — not the pairs the
scan rejected), in sorted order, bounded by the
`num_of_connections - edges_added` take count; the spanning pass itself
never emits a pair twice, but the extra pass can re-add an accepted pair
that sits at a position `≥ edges_added`, producing parallel edges. -/
theorem c2_extra_pass_positional {cfg : AppConfig} {rng r' : StdRng}
    {towns : List Town} {g : TownGraph} {ns : List Nat}
    (h : generate_graph cfg rng towns = some (g, ns, r')) :
    ∃ pairs r1, drawDists cfg (allPairs towns.length) rng = some (pairs, r1) ∧
      g.edges = (spanPass cfg (sortPairs pairs) id).1
        ++ (((sortPairs pairs).drop (spanPass cfg (sortPairs pairs) id).2.2).take
            (wsub64 cfg.num_of_connections (spanPass cfg (sortPairs pairs) id).2.2)).map
          (mkEdge cfg) ∧
      ((spanPass cfg (sortPairs pairs) id).1.map (fun e => (e.1, e.2.1))).Nodup := by
  simp only [generate_graph] at h
  cases hdraw : drawDists cfg (allPairs towns.length) rng with
  | none => rw [hdraw] at h; exact absurd h (by simp)
  | some pr =>
  obtain ⟨pairs, r1⟩ := pr
  rw [hdraw] at h
  simp only [Option.some.injEq, Prod.mk.injEq] at h
  obtain ⟨hg, -, -⟩ := h
  refine ⟨pairs, r1, rfl, ?_, spanPass_pairs_nodup⟩
  rw [← hg]
  simp only
  rw [extraPass_take]

/-- C2 witness: the positional characterization at a concrete two-town
run. -/
theorem c2_extra_pass_positional_witness :
    ∃ pairs r1, drawDists baseCfg (allPairs ([mkTown 0, mkTown 1]).length) rng0
        = some (pairs, r1) ∧
      (TownGraph.mk [mkTown 0, mkTown 1] [(0, 1, ⟨10, 50⟩)]).edges
        = (spanPass baseCfg (sortPairs pairs) id).1
        ++ (((sortPairs pairs).drop (spanPass baseCfg (sortPairs pairs) id).2.2).take
            (wsub64 baseCfg.num_of_connections (spanPass baseCfg (sortPairs pairs) id).2.2)).map
          (mkEdge baseCfg) ∧
      ((spanPass baseCfg (sortPairs pairs) id).1.map (fun e => (e.1, e.2.1))).Nodup :=
  c2_extra_pass_positional
    (show generate_graph baseCfg rng0 [mkTown 0, mkTown 1]
      = some (⟨[mkTown 0, mkTown 1], [(0, 1, ⟨10, 50⟩)]⟩, [0, 1], ⟨rng0.stream, 1⟩) from rfl)

/-! ### C4 — identifier uniqueness across a generation run -/

/-- All ids a room carries (its own, its NPCs', its containers'). -/
def roomIds (r : Room) : List Nat :=
  r.id :: (r.npcs.map Npc.id ++ r.containers.map Container.id)

/-- All ids a building carries. -/
def buildingIds (b : Building) : List Nat := b.id :: b.rooms.flatMap roomIds

/-- All ids a town carries. -/
def townIds (t : Town) : List Nat := t.id :: t.buildings.flatMap buildingIds

/-- All entity ids of a generated town list (towns, buildings, rooms,
NPCs, containers). -/
def allIds (towns : List Town) : List Nat := towns.flatMap townIds

/-- `l` is a duplicate-free batch of ids issued by the tracker between
states `t` and `t'`, all within `[min_id, max_id)`. -/
def IssuedBetween (cfg : AppConfig) (t t' : IdTracker) (l : List Nat) : Prop :=
  t.ids ⊆ t'.ids ∧ l.Nodup ∧
    ∀ x ∈ l, x ∈ t'.ids ∧ x ∉ t.ids ∧ cfg.min_id ≤ x ∧ x < cfg.max_id

theorem ib_nil {cfg : AppConfig} {t : IdTracker} : IssuedBetween cfg t t [] :=
  ⟨Finset.Subset.refl _, List.nodup_nil, by simp⟩

theorem ib_single {cfg : AppConfig} {fuel : Nat} {tk tk' : IdTracker} {i : Nat}
    (h : IdTracker.get_new_id fuel cfg tk = some (i, tk')) :
    IssuedBetween cfg tk tk' [i] := by
  obtain ⟨⟨hlo, hhi⟩, hnot, hins⟩ := IdTracker.get_new_id_spec h
  refine ⟨?_, List.nodup_singleton _, ?_⟩
  · rw [hins]; exact Finset.subset_insert _ _
  · intro x hx
    rw [List.mem_singleton] at hx
    subst hx
    exact ⟨by rw [hins]; exact Finset.mem_insert_self _ _, hnot, hlo, hhi⟩

theorem ib_comp {cfg : AppConfig} {t t1 t2 : IdTracker} {l1 l2 : List Nat}
    (h1 : IssuedBetween cfg t t1 l1) (h2 : IssuedBetween cfg t1 t2 l2) :
    IssuedBetween cfg t t2 (l1 ++ l2) := by
  obtain ⟨hs1, hn1, hm1⟩ := h1
  obtain ⟨hs2, hn2, hm2⟩ := h2
  refine ⟨hs1.trans hs2, ?_, ?_⟩
  · refine hn1.append hn2 ?_
    intro x hx1 hx2
    exact (hm2 x hx2).2.1 ((hm1 x hx1).1)
  · intro x hx
    rcases List.mem_append.mp hx with hx1 | hx2
    · obtain ⟨ha, hb, hc, hd⟩ := hm1 x hx1
      exact ⟨hs2 ha, hb, hc, hd⟩
    · obtain ⟨ha, hb, hc, hd⟩ := hm2 x hx2
      exact ⟨ha, fun hmem => hb (hs1 hmem), hc, hd⟩

theorem ib_perm {cfg : AppConfig} {t t' : IdTracker} {l l' : List Nat}
    (hp : l.Perm l') (h : IssuedBetween cfg t t' l) : IssuedBetween cfg t t' l' := by
  obtain ⟨hs, hn, hm⟩ := h
  exact ⟨hs, hp.nodup_iff.mp hn, fun x hx => hm x (hp.mem_iff.mpr hx)⟩

theorem ib_sub {cfg : AppConfig} {t t' : IdTracker} {l l' : List Nat}
    (hsub : ∀ x ∈ l', x ∈ l) (hnd : l'.Nodup) (h : IssuedBetween cfg t t' l) :
    IssuedBetween cfg t t' l' :=
  ⟨h.1, hnd, fun x hx => h.2.2 x (hsub x hx)⟩

theorem containersLoop_ids {fuel : Nat} {cfg : AppConfig} {t b r : Nat} :
    ∀ {n : Nat} {rng r' : StdRng} {tk tk' : IdTracker} {cs : List Container},
      containersLoop fuel cfg t b r n rng tk = some (cs, r', tk') →
      IssuedBetween cfg tk tk' (cs.map Container.id) := by
  intro n
  induction n with
  | zero =>
    intro rng r' tk tk' cs h
    simp only [containersLoop, Option.some.injEq, Prod.mk.injEq] at h
    obtain ⟨rfl, -, rfl⟩ := h
    exact ib_nil
  | succ n ih =>
    intro rng r' tk tk' cs h
    rw [containersLoop] at h
    cases hid : IdTracker.get_new_id fuel cfg tk with
    | none => rw [hid] at h; exact absurd h (by simp)
    | some p1 =>
    obtain ⟨cid, tk1⟩ := p1
    rw [hid] at h
    simp only at h
    cases hkt : rng.genRange 0 3 with
    | none => rw [hkt] at h; exact absurd h (by simp)
    | some p2 =>
    obtain ⟨kt, r1⟩ := p2
    rw [hkt] at h
    simp only at h
    cases hrest : containersLoop fuel cfg t b r n r1 tk1 with
    | none => rw [hrest] at h; exact absurd h (by simp)
    | some p3 =>
    obtain ⟨rest, r2, tk2⟩ := p3
    rw [hrest] at h
    simp only [Option.some.injEq, Prod.mk.injEq] at h
    obtain ⟨rfl, -, rfl⟩ := h
    simp only [List.map_cons]
    exact ib_comp (ib_single hid) (ih hrest)

theorem generate_containers_ids {fuel : Nat} {cfg : AppConfig} {t b r : Nat}
    {rng r' : StdRng} {tk tk' : IdTracker} {cs : List Container}
    (h : generate_containers fuel cfg rng tk t b r = some (cs, r', tk')) :
    IssuedBetween cfg tk tk' (cs.map Container.id) := by
  unfold generate_containers at h
  cases hn : rng.genRange cfg.min_containers cfg.max_containers with
  | none => rw [hn] at h; exact absurd h (by simp)
  | some p =>
    obtain ⟨n, r1⟩ := p
    rw [hn] at h
    exact containersLoop_ids h

theorem npcsLoop_ids {fuel : Nat} {cfg : AppConfig} {wl : WordLists}
    {t b : Nat} {bn : String} {bt : BuildingType} :
    ∀ {n : Nat} {rng r' : StdRng} {tk tk' : IdTracker} {npcs : List Npc},
      npcsLoop fuel cfg wl t b bn bt n rng tk = some (npcs, r', tk') →
      IssuedBetween cfg tk tk' (npcs.map Npc.id) ∧ ∀ np ∈ npcs, np.room_id = none := by
  intro n
  induction n with
  | zero =>
    intro rng r' tk tk' npcs h
    simp only [npcsLoop, Option.some.injEq, Prod.mk.injEq] at h
    obtain ⟨rfl, -, rfl⟩ := h
    exact ⟨ib_nil, by simp⟩
  | succ n ih =>
    intro rng r' tk tk' npcs h
    rw [npcsLoop] at h
    cases hid : IdTracker.get_new_id fuel cfg tk with
    | none => rw [hid] at h; exact absurd h (by simp)
    | some p1 =>
    obtain ⟨nid, tk1⟩ := p1
    rw [hid] at h
    simp only at h
    cases hks : rng.genRange 0 3 with
    | none => rw [hks] at h; exact absurd h (by simp)
    | some p2 =>
    obtain ⟨ks, r1⟩ := p2
    rw [hks] at h
    simp only at h
    cases hkr : r1.genRange 0 2 with
    | none => rw [hkr] at h; exact absurd h (by simp)
    | some p3 =>
    obtain ⟨kr, r2⟩ := p3
    rw [hkr] at h
    simp only at h
    cases hnm : generate_npc_name r2 bn bt
        (if ks = 0 then NpcSex.Male else if ks = 1 then NpcSex.Female else NpcSex.Unisex) wl with
    | none => rw [hnm] at h; exact absurd h (by simp)
    | some p4 =>
    obtain ⟨nm, r3⟩ := p4
    rw [hnm] at h
    simp only at h
    cases hrest : npcsLoop fuel cfg wl t b bn bt n r3 tk1 with
    | none => rw [hrest] at h; exact absurd h (by simp)
    | some p5 =>
    obtain ⟨rest, r4, tk2⟩ := p5
    rw [hrest] at h
    simp only [Option.some.injEq, Prod.mk.injEq] at h
    obtain ⟨rfl, -, rfl⟩ := h
    obtain ⟨ihib, ihroom⟩ := ih hrest
    constructor
    · simp only [List.map_cons]
      exact ib_comp (ib_single hid) ihib
    · intro np hnp
      rcases List.mem_cons.mp hnp with he | hm
      · rw [he]
      · exact ihroom np hm

theorem generate_npcs_ids {fuel : Nat} {cfg : AppConfig} {wl : WordLists}
    {t b : Nat} {bn : String} {bt : BuildingType}
    {rng r' : StdRng} {tk tk' : IdTracker} {npcs : List Npc}
    (h : generate_npcs fuel cfg wl rng tk t b bn bt = some (npcs, r', tk')) :
    IssuedBetween cfg tk tk' (npcs.map Npc.id) ∧ ∀ np ∈ npcs, np.room_id = none := by
  unfold generate_npcs at h
  cases bt with
  | Shop => exact npcsLoop_ids h
  | Residence => exact npcsLoop_ids h
  | Tavern =>
    simp only at h
    cases hn : rng.genRange cfg.min_npcs cfg.max_npcs with
    | none => rw [hn] at h; exact absurd h (by simp)
    | some p =>
      obtain ⟨n, r1⟩ := p
      rw [hn] at h
      exact npcsLoop_ids h
  | Temple =>
    simp only at h
    cases hn : rng.genRange cfg.min_npcs cfg.max_npcs with
    | none => rw [hn] at h; exact absurd h (by simp)
    | some p =>
      obtain ⟨n, r1⟩ := p
      rw [hn] at h
      exact npcsLoop_ids h

theorem roomsLoop_ids {fuel : Nat} {cfg : AppConfig} {t b : Nat} :
    ∀ {n : Nat} {rng r' : StdRng} {tk tk' : IdTracker} {rooms : List Room},
      roomsLoop fuel cfg t b n rng tk = some (rooms, r', tk') →
      IssuedBetween cfg tk tk' (rooms.flatMap roomIds) ∧
        ∀ room ∈ rooms, room.npcs = [] := by
  intro n
  induction n with
  | zero =>
    intro rng r' tk tk' rooms h
    simp only [roomsLoop, Option.some.injEq, Prod.mk.injEq] at h
    obtain ⟨rfl, -, rfl⟩ := h
    exact ⟨ib_nil, by simp⟩
  | succ n ih =>
    intro rng r' tk tk' rooms h
    rw [roomsLoop] at h
    cases hid : IdTracker.get_new_id fuel cfg tk with
    | none => rw [hid] at h; exact absurd h (by simp)
    | some p1 =>
    obtain ⟨rid, tk1⟩ := p1
    rw [hid] at h
    simp only at h
    cases hcs : generate_containers fuel cfg rng tk1 t b rid with
    | none => rw [hcs] at h; exact absurd h (by simp)
    | some p2 =>
    obtain ⟨cs, r1, tk2⟩ := p2
    rw [hcs] at h
    simp only at h
    cases hrest : roomsLoop fuel cfg t b n r1 tk2 with
    | none => rw [hrest] at h; exact absurd h (by simp)
    | some p3 =>
    obtain ⟨rest, r2, tk3⟩ := p3
    rw [hrest] at h
    simp only [Option.some.injEq, Prod.mk.injEq] at h
    obtain ⟨rfl, -, rfl⟩ := h
    obtain ⟨ihib, ihempty⟩ := ih hrest
    constructor
    · simp only [List.flatMap_cons, roomIds, List.map_nil, List.nil_append, List.cons_append]
      exact ib_comp (ib_single hid) (ib_comp (generate_containers_ids hcs) ihib)
    · intro room hroom
      rcases List.mem_cons.mp hroom with he | hm
      · rw [he]
      · exact ihempty room hm

theorem cons_eraseIdx_perm {α : Type} :
    ∀ (l : List α) (idx : Nat) (x : α), l.get? idx = some x →
      l.Perm (x :: l.eraseIdx idx) := by
  intro l
  induction l with
  | nil => intro idx x h; simp at h
  | cons y ys ih =>
    intro idx x h
    cases idx with
    | zero =>
      simp only [List.get?_cons_zero, Option.some.injEq] at h
      subst h
      simp [List.eraseIdx]
    | succ idx =>
      simp only [List.get?_cons_succ] at h
      have h1 := (ih idx x h).cons y
      have h2 : (y :: x :: ys.eraseIdx idx).Perm (x :: y :: ys.eraseIdx idx) :=
        List.Perm.swap x y _
      exact h1.trans h2

theorem shuffleList_perm : ∀ (f : Nat) (rng : StdRng) (l : List Npc),
    (shuffleList f rng l).1.Perm l := by
  intro f
  induction f with
  | zero => intro rng l; exact List.Perm.refl _
  | succ f ih =>
    intro rng l
    cases l with
    | nil => exact List.Perm.refl _
    | cons x xs =>
      rw [shuffleList]
      simp only
      cases hget : (x :: xs).get? ((rng.next).1 % (x :: xs).length) with
      | none => exact List.Perm.refl _
      | some y =>
        simp only
        exact ((ih _ _).cons y).trans (cons_eraseIdx_perm _ _ _ hget).symm

theorem addNpcAt_length : ∀ (idx : Nat) (npc : Npc) (rooms : List Room),
    (addNpcAt idx npc rooms).length = rooms.length := by
  intro idx npc rooms
  induction rooms generalizing idx with
  | nil => cases idx <;> rfl
  | cons room rest ih =>
    cases idx with
    | zero => rfl
    | succ k => simpa [addNpcAt] using ih k

theorem addNpcAt_flatMap : ∀ (rooms : List Room) (idx : Nat) (npc : Npc),
    idx < rooms.length →
    ((addNpcAt idx npc rooms).flatMap roomIds).Perm (npc.id :: rooms.flatMap roomIds) := by
  intro rooms
  induction rooms with
  | nil => intro idx npc h; simp at h
  | cons room rest ih =>
    intro idx npc h
    cases idx with
    | zero =>
      simp only [addNpcAt, List.flatMap_cons, roomIds, List.map_append,
        List.map_cons, List.map_nil, List.cons_append, List.append_assoc,
        List.singleton_append, List.nil_append]
      refine List.Perm.trans (List.Perm.cons _ List.perm_middle) ?_
      exact List.Perm.swap _ _ _
    | succ k =>
      have hk : k < rest.length := by simpa using h
      simp only [addNpcAt, List.flatMap_cons]
      refine List.Perm.trans (List.Perm.append_left _ (ih k npc hk)) ?_
      exact List.perm_middle

theorem assignNpcs_flatMap : ∀ (npcs : List Npc) (rooms : List Room) (rng : StdRng),
    ((assignNpcs npcs rooms rng).1.flatMap roomIds).Perm
      ((if rooms.length = 0 then [] else npcs.map Npc.id) ++ rooms.flatMap roomIds) := by
  intro npcs
  induction npcs with
  | nil =>
    intro rooms rng
    simp [assignNpcs]
  | cons npc rest ih =>
    intro rooms rng
    cases rooms with
    | nil =>
      rw [assignNpcs]
      simpa using ih [] rng
    | cons r rs =>
      rw [assignNpcs]
      simp only
      have hidx : (rng.next).1 % (r :: rs).length < (r :: rs).length :=
        Nat.mod_lt _ (by simp)
      rw [List.get?_eq_get hidx]
      simp only
      have hlen := addNpcAt_length ((rng.next).1 % (r :: rs).length)
        { npc with room_id := some ((r :: rs).get ⟨_, hidx⟩).id } (r :: rs)
      have hIH := ih (addNpcAt ((rng.next).1 % (r :: rs).length)
        { npc with room_id := some ((r :: rs).get ⟨_, hidx⟩).id } (r :: rs)) (rng.next).2
      rw [hlen] at hIH
      simp only [List.length_cons, Nat.succ_ne_zero, if_neg (Nat.succ_ne_zero _)] at hIH ⊢
      have hadd := addNpcAt_flatMap (r :: rs) ((rng.next).1 % (r :: rs).length)
        { npc with room_id := some ((r :: rs).get ⟨_, hidx⟩).id } hidx
      have : ((assignNpcs rest (addNpcAt ((rng.next).1 % (r :: rs).length)
          { npc with room_id := some ((r :: rs).get ⟨_, hidx⟩).id } (r :: rs))
          (rng.next).2).1.flatMap roomIds).Perm
          (rest.map Npc.id ++ (npc.id :: (r :: rs).flatMap roomIds)) :=
        hIH.trans (List.Perm.append_left _ hadd)
      refine this.trans ?_
      simp only [List.map_cons, List.cons_append]
      exact List.perm_middle

theorem generate_rooms_ids {fuel : Nat} {cfg : AppConfig} {t b : Nat}
    {rng r' : StdRng} {tk tk' : IdTracker} {npcs : List Npc} {rooms' : List Room}
    (h : generate_rooms fuel cfg rng tk t b npcs = some (rooms', r', tk')) :
    ∃ S, IssuedBetween cfg tk tk' S ∧
      ((rooms'.flatMap roomIds).Perm (npcs.map Npc.id ++ S) ∨
        (rooms'.flatMap roomIds).Perm S) := by
  unfold generate_rooms at h
  cases hn : rng.genRange cfg.min_rooms cfg.max_rooms with
  | none => rw [hn] at h; exact absurd h (by simp)
  | some p =>
  obtain ⟨n, r1⟩ := p
  rw [hn] at h
  simp only at h
  cases hrl : roomsLoop fuel cfg t b n r1 tk with
  | none => rw [hrl] at h; exact absurd h (by simp)
  | some p2 =>
  obtain ⟨rooms, r2, tk1⟩ := p2
  rw [hrl] at h
  simp only [Option.some.injEq, Prod.mk.injEq] at h
  obtain ⟨rfl, -, rfl⟩ := h
  obtain ⟨hib, -⟩ := roomsLoop_ids hrl
  refine ⟨rooms.flatMap roomIds, hib, ?_⟩
  have hassign := assignNpcs_flatMap (shuffleList npcs.length r2 npcs).1 rooms
    (shuffleList npcs.length r2 npcs).2
  by_cases hempty : rooms.length = 0
  · right
    rw [if_pos hempty] at hassign
    simpa using hassign
  · left
    rw [if_neg hempty] at hassign
    refine hassign.trans (List.Perm.append_right _ ?_)
    exact List.Perm.map Npc.id (shuffleList_perm npcs.length r2 npcs)

theorem ib_widen {cfg : AppConfig} {t1 t2 t3 : IdTracker} {l : List Nat}
    (hsub : t1.ids ⊆ t2.ids) (h : IssuedBetween cfg t2 t3 l) :
    IssuedBetween cfg t1 t3 l := by
  obtain ⟨hs, hn, hm⟩ := h
  refine ⟨hsub.trans hs, hn, ?_⟩
  intro x hx
  obtain ⟨ha, hb, hc, hd⟩ := hm x hx
  exact ⟨ha, fun hmem => hb (hsub hmem), hc, hd⟩

theorem buildingsLoop_ids {fuel : Nat} {cfg : AppConfig} {wl : WordLists}
    {town_id grid : Nat} :
    ∀ {n : Nat} {pos : Nat × Nat} {rng r' : StdRng} {tk tk' : IdTracker}
      {bs : List Building},
      buildingsLoop fuel cfg wl town_id grid n pos rng tk = some (bs, r', tk') →
      IssuedBetween cfg tk tk' (bs.flatMap buildingIds) := by
  intro n
  induction n with
  | zero =>
    intro pos rng r' tk tk' bs h
    simp only [buildingsLoop, Option.some.injEq, Prod.mk.injEq] at h
    obtain ⟨rfl, -, rfl⟩ := h
    exact ib_nil
  | succ n ih =>
    intro pos rng r' tk tk' bs h
    rw [buildingsLoop] at h
    cases hid : IdTracker.get_new_id fuel cfg tk with
    | none => rw [hid] at h; exact absurd h (by simp)
    | some p1 =>
    obtain ⟨bid, tk1⟩ := p1
    rw [hid] at h
    simp only at h
    cases hkt : rng.genRange 0 4 with
    | none => rw [hkt] at h; exact absurd h (by simp)
    | some p2 =>
    obtain ⟨kt, r1⟩ := p2
    rw [hkt] at h
    simp only at h
    cases hbn : generate_building_name r1
        (if kt = 0 then BuildingType.Residence
          else if kt = 1 then BuildingType.Shop
          else if kt = 2 then BuildingType.Tavern
          else if kt = 3 then BuildingType.Temple else BuildingType.Residence) wl with
    | none => rw [hbn] at h; exact absurd h (by simp)
    | some p3 =>
    obtain ⟨bname, r2⟩ := p3
    rw [hbn] at h
    simp only at h
    cases hnp : generate_npcs fuel cfg wl r2 tk1 town_id bid bname
        (if kt = 0 then BuildingType.Residence
          else if kt = 1 then BuildingType.Shop
          else if kt = 2 then BuildingType.Tavern
          else if kt = 3 then BuildingType.Temple else BuildingType.Residence) with
    | none => rw [hnp] at h; exact absurd h (by simp)
    | some p4 =>
    obtain ⟨npcs, r3, tk2⟩ := p4
    rw [hnp] at h
    simp only at h
    cases hrm : generate_rooms fuel cfg r3 tk2 town_id bid npcs with
    | none => rw [hrm] at h; exact absurd h (by simp)
    | some p5 =>
    obtain ⟨rooms, r4, tk3⟩ := p5
    rw [hrm] at h
    simp only at h
    cases hrest : buildingsLoop fuel cfg wl town_id grid n
        (if pos.1 + 1 ≥ grid then (0, pos.2 + 1) else (pos.1 + 1, pos.2)) r4 tk3 with
    | none => rw [hrest] at h; exact absurd h (by simp)
    | some p6 =>
    obtain ⟨rest, r5, tk4⟩ := p6
    rw [hrest] at h
    simp only [Option.some.injEq, Prod.mk.injEq] at h
    obtain ⟨rfl, -, rfl⟩ := h
    simp only [List.flatMap_cons]
    have hibB := ib_single hid
    obtain ⟨hibN, -⟩ := generate_npcs_ids hnp
    obtain ⟨S, hibS, hperm⟩ := generate_rooms_ids hrm
    have hibRest := ih hrest
    refine ib_comp ?_ hibRest
    rcases hperm with hL | hR
    · have hcomp := ib_comp hibB (ib_comp hibN hibS)
      refine ib_perm ?_ hcomp
      simp only [buildingIds, List.singleton_append]
      exact List.Perm.cons _ hL.symm
    · have hcomp := ib_comp hibB (ib_widen hibN.1 hibS)
      refine ib_perm ?_ hcomp
      simp only [buildingIds, List.singleton_append]
      exact List.Perm.cons _ hR.symm

theorem townsLoop_ids {fuel : Nat} {cfg : AppConfig} {wl : WordLists} :
    ∀ {n : Nat} {rng r' : StdRng} {tk tk' : IdTracker} {towns : List Town},
      townsLoop fuel cfg wl n rng tk = some (towns, r', tk') →
      IssuedBetween cfg tk tk' (allIds towns) := by
  intro n
  induction n with
  | zero =>
    intro rng r' tk tk' towns h
    simp only [townsLoop, Option.some.injEq, Prod.mk.injEq] at h
    obtain ⟨rfl, -, rfl⟩ := h
    exact ib_nil
  | succ n ih =>
    intro rng r' tk tk' towns h
    rw [townsLoop] at h
    cases hid : IdTracker.get_new_id fuel cfg tk with
    | none => rw [hid] at h; exact absurd h (by simp)
    | some p1 =>
    obtain ⟨tid, tk1⟩ := p1
    rw [hid] at h
    simp only at h
    cases hnb : rng.genRange cfg.min_buildings cfg.max_buildings with
    | none => rw [hnb] at h; exact absurd h (by simp)
    | some p2 =>
    obtain ⟨nb, r1⟩ := p2
    rw [hnb] at h
    simp only at h
    cases hbs : generate_buildings fuel cfg wl r1 tk1 tid nb with
    | none => rw [hbs] at h; exact absurd h (by simp)
    | some p3 =>
    obtain ⟨bs, r2, tk2⟩ := p3
    rw [hbs] at h
    simp only at h
    cases htn : generate_town_name r2 wl with
    | none => rw [htn] at h; exact absurd h (by simp)
    | some p4 =>
    obtain ⟨tname, r3⟩ := p4
    rw [htn] at h
    simp only at h
    cases hrest : townsLoop fuel cfg wl n r3 tk2 with
    | none => rw [hrest] at h; exact absurd h (by simp)
    | some p5 =>
    obtain ⟨rest, r4, tk3⟩ := p5
    rw [hrest] at h
    simp only [Option.some.injEq, Prod.mk.injEq] at h
    obtain ⟨rfl, -, rfl⟩ := h
    simp only [allIds, List.flatMap_cons, townIds]
    have hibT := ib_single hid
    have hibB := buildingsLoop_ids hbs
    have hibRest := ih hrest
    exact ib_comp (ib_comp hibT hibB) hibRest

/-- `generate_graph` stores the towns unchanged as the node list and
returns the node indices `0, ..., n-1`; it does not touch the tracker. -/
theorem generate_graph_nodes {cfg : AppConfig} {rng r' : StdRng}
    {towns : List Town} {g : TownGraph} {ns : List Nat}
    (h : generate_graph cfg rng towns = some (g, ns, r')) :
    g.nodes = towns ∧ ns = List.range towns.length := by
  simp only [generate_graph] at h
  cases hdraw : drawDists cfg (allPairs towns.length) rng with
  | none => rw [hdraw] at h; exact absurd h (by simp)
  | some pr =>
    obtain ⟨pairs, r1⟩ := pr
    rw [hdraw] at h
    simp only [Option.some.injEq, Prod.mk.injEq] at h
    obtain ⟨hg, hns, -⟩ := h
    rw [← hg, ← hns]
    exact ⟨rfl, rfl⟩

theorem range_filterMap_get {α : Type} : ∀ (l : List α),
    (List.range l.length).filterMap l.get? = l := by
  intro l
  induction l with
  | nil => rfl
  | cons x xs ih =>
    rw [List.length_cons, List.range_succ_eq_map]
    rw [List.filterMap_cons]
    simp only [List.get?_cons_zero]
    rw [List.filterMap_map]
    have hcomp : (x :: xs).get? ∘ Nat.succ = xs.get? := by
      funext i
      rfl
    rw [hcomp, ih]

/-- `generate_towns` returns exactly the generated towns (read back
through the graph's nodes) and its issued ids are the towns' ids. -/
theorem generate_towns_ids {fuel : Nat} {cfg : AppConfig} {wl : WordLists}
    {rng r' : StdRng} {tk tk' : IdTracker} {g : TownGraph} {towns : List Town}
    (h : generate_towns fuel cfg wl rng tk = some (g, towns, r', tk')) :
    IssuedBetween cfg tk tk' (allIds towns) ∧ g.nodes = towns := by
  unfold generate_towns at h
  cases hloop : townsLoop fuel cfg wl cfg.num_of_towns rng tk with
  | none => rw [hloop] at h; exact absurd h (by simp)
  | some p1 =>
  obtain ⟨towns0, r1, tk1⟩ := p1
  rw [hloop] at h
  simp only at h
  cases hgr : generate_graph cfg r1 towns0 with
  | none => rw [hgr] at h; exact absurd h (by simp)
  | some p2 =>
  obtain ⟨graph, nodes, r2⟩ := p2
  rw [hgr] at h
  simp only [Option.some.injEq, Prod.mk.injEq] at h
  obtain ⟨rfl, htowns, -, rfl⟩ := h
  obtain ⟨hnodes, hns⟩ := generate_graph_nodes hgr
  have : towns = towns0 := by
    rw [← htowns, hns, hnodes, range_filterMap_get]
  subst this
  exact ⟨townsLoop_ids hloop, hnodes⟩

/-- C4: every identifier `get_new_id` returns lies in `[min_id, max_id)`
and differs from every identifier previously returned by that tracker;
hence across one generation run the full entity tree (towns, buildings,
rooms, NPCs, containers) carries pairwise distinct identifiers, all in
`[min_id, max_id)`. -/
theorem c4_id_uniqueness :
    (∀ (fuel : Nat) (cfg : AppConfig) (tk tk' : IdTracker) (i : Nat),
      IdTracker.get_new_id fuel cfg tk = some (i, tk') →
        (cfg.min_id ≤ i ∧ i < cfg.max_id) ∧ i ∉ tk.ids) ∧
    (∀ (fuel : Nat) (cfg : AppConfig) (wl : WordLists) (g : Nat → Nat → Nat)
      (seed : Nat) (graph : TownGraph) (towns : List Town) (world : World),
      generate_world fuel cfg wl g seed = some (graph, towns, world) →
        (allIds towns).Nodup ∧
          ∀ x ∈ allIds towns, cfg.min_id ≤ x ∧ x < cfg.max_id) := by
  constructor
  · intro fuel cfg tk tk' i h
    obtain ⟨hb, hn, -⟩ := IdTracker.get_new_id_spec h
    exact ⟨hb, hn⟩
  · intro fuel cfg wl g seed graph towns world h
    unfold generate_world at h
    cases ht : generate_towns fuel cfg wl (StdRng.ofSeed g seed) (IdTracker.new g seed) with
    | none => rw [ht] at h; exact absurd h (by simp)
    | some p =>
      obtain ⟨graph0, towns0, r1, tk1⟩ := p
      rw [ht] at h
      simp only [Option.some.injEq, Prod.mk.injEq] at h
      obtain ⟨-, rfl, -⟩ := h
      obtain ⟨⟨-, hnodup, hmem⟩, -⟩ := generate_towns_ids ht
      exact ⟨hnodup, fun x hx => ⟨(hmem x hx).2.2.1, (hmem x hx).2.2.2⟩⟩

/-- C4 witness: a concrete one-town generation run in which all issued
entity ids are pairwise distinct and in range. -/
theorem c4_id_uniqueness_witness :
    ∃ graph towns world, generate_world 2 baseCfg wl1 idFam 7 = some (graph, towns, world) ∧
      (allIds towns).Nodup ∧ ∀ x ∈ allIds towns, baseCfg.min_id ≤ x ∧ x < baseCfg.max_id :=
  ⟨_, _, _, rfl, c4_id_uniqueness.2 2 baseCfg wl1 idFam 7 _ _ _ rfl⟩

/-! ### C5 / C10 — inhabitant counts and room assignment -/

/-- Number of inhabitants a building's rooms hold. -/
def inhabitants (b : Building) : Nat := (b.rooms.flatMap Room.npcs).length

/-- The per-category inhabitant rule of the spec. -/
def CategoryRule (cfg : AppConfig) (b : Building) : Prop :=
  (b.building_type = BuildingType.Shop → inhabitants b = 1) ∧
  (b.building_type = BuildingType.Residence → inhabitants b = 2) ∧
  (b.building_type = BuildingType.Tavern ∨ b.building_type = BuildingType.Temple →
    cfg.min_npcs ≤ inhabitants b ∧ inhabitants b < cfg.max_npcs)

theorem npcsLoop_length {fuel : Nat} {cfg : AppConfig} {wl : WordLists}
    {t b : Nat} {bn : String} {bt : BuildingType} :
    ∀ {n : Nat} {rng r' : StdRng} {tk tk' : IdTracker} {npcs : List Npc},
      npcsLoop fuel cfg wl t b bn bt n rng tk = some (npcs, r', tk') →
      npcs.length = n := by
  intro n
  induction n with
  | zero =>
    intro rng r' tk tk' npcs h
    simp only [npcsLoop, Option.some.injEq, Prod.mk.injEq] at h
    obtain ⟨rfl, -, -⟩ := h
    rfl
  | succ n ih =>
    intro rng r' tk tk' npcs h
    rw [npcsLoop] at h
    cases hid : IdTracker.get_new_id fuel cfg tk with
    | none => rw [hid] at h; exact absurd h (by simp)
    | some p1 =>
    obtain ⟨nid, tk1⟩ := p1
    rw [hid] at h
    simp only at h
    cases hks : rng.genRange 0 3 with
    | none => rw [hks] at h; exact absurd h (by simp)
    | some p2 =>
    obtain ⟨ks, r1⟩ := p2
    rw [hks] at h
    simp only at h
    cases hkr : r1.genRange 0 2 with
    | none => rw [hkr] at h; exact absurd h (by simp)
    | some p3 =>
    obtain ⟨kr, r2⟩ := p3
    rw [hkr] at h
    simp only at h
    cases hnm : generate_npc_name r2 bn bt
        (if ks = 0 then NpcSex.Male else if ks = 1 then NpcSex.Female else NpcSex.Unisex) wl with
    | none => rw [hnm] at h; exact absurd h (by simp)
    | some p4 =>
    obtain ⟨nm, r3⟩ := p4
    rw [hnm] at h
    simp only at h
    cases hrest : npcsLoop fuel cfg wl t b bn bt n r3 tk1 with
    | none => rw [hrest] at h; exact absurd h (by simp)
    | some p5 =>
    obtain ⟨rest, r4, tk2⟩ := p5
    rw [hrest] at h
    simp only [Option.some.injEq, Prod.mk.injEq] at h
    obtain ⟨rfl, -, -⟩ := h
    simp only [List.length_cons]
    rw [ih hrest]

/-- The generated inhabitant count per category: exactly 1 for a Shop,
exactly 2 for a Residence, a draw from `[min_npcs, max_npcs)` for a
Tavern or Temple. -/
theorem generate_npcs_count {fuel : Nat} {cfg : AppConfig} {wl : WordLists}
    {t b : Nat} {bn : String} {bt : BuildingType}
    {rng r' : StdRng} {tk tk' : IdTracker} {npcs : List Npc}
    (h : generate_npcs fuel cfg wl rng tk t b bn bt = some (npcs, r', tk')) :
    (bt = BuildingType.Shop → npcs.length = 1) ∧
    (bt = BuildingType.Residence → npcs.length = 2) ∧
    (bt = BuildingType.Tavern ∨ bt = BuildingType.Temple →
      cfg.min_npcs ≤ npcs.length ∧ npcs.length < cfg.max_npcs) := by
  unfold generate_npcs at h
  cases bt with
  | Shop =>
    refine ⟨fun _ => npcsLoop_length h, fun hr => ?_, fun ho => ?_⟩
    · exact absurd hr (by simp)
    · rcases ho with ho | ho <;> exact absurd ho (by simp)
  | Residence =>
    refine ⟨fun hs => ?_, fun _ => npcsLoop_length h, fun ho => ?_⟩
    · exact absurd hs (by simp)
    · rcases ho with ho | ho <;> exact absurd ho (by simp)
  | Tavern =>
    simp only at h
    cases hn : rng.genRange cfg.min_npcs cfg.max_npcs with
    | none => rw [hn] at h; exact absurd h (by simp)
    | some p =>
      obtain ⟨n, r1⟩ := p
      rw [hn] at h
      obtain ⟨hlo, hhi⟩ := StdRng.genRange_bounds hn
      have := npcsLoop_length h
      exact ⟨fun hs => absurd hs (by simp), fun hr => absurd hr (by simp),
        fun _ => by omega⟩
  | Temple =>
    simp only at h
    cases hn : rng.genRange cfg.min_npcs cfg.max_npcs with
    | none => rw [hn] at h; exact absurd h (by simp)
    | some p =>
      obtain ⟨n, r1⟩ := p
      rw [hn] at h
      obtain ⟨hlo, hhi⟩ := StdRng.genRange_bounds hn
      have := npcsLoop_length h
      exact ⟨fun hs => absurd hs (by simp), fun hr => absurd hr (by simp),
        fun _ => by omega⟩

theorem roomsLoop_length {fuel : Nat} {cfg : AppConfig} {t b : Nat} :
    ∀ {n : Nat} {rng r' : StdRng} {tk tk' : IdTracker} {rooms : List Room},
      roomsLoop fuel cfg t b n rng tk = some (rooms, r', tk') →
      rooms.length = n := by
  intro n
  induction n with
  | zero =>
    intro rng r' tk tk' rooms h
    simp only [roomsLoop, Option.some.injEq, Prod.mk.injEq] at h
    obtain ⟨rfl, -, -⟩ := h
    rfl
  | succ n ih =>
    intro rng r' tk tk' rooms h
    rw [roomsLoop] at h
    cases hid : IdTracker.get_new_id fuel cfg tk with
    | none => rw [hid] at h; exact absurd h (by simp)
    | some p1 =>
    obtain ⟨rid, tk1⟩ := p1
    rw [hid] at h
    simp only at h
    cases hcs : generate_containers fuel cfg rng tk1 t b rid with
    | none => rw [hcs] at h; exact absurd h (by simp)
    | some p2 =>
    obtain ⟨cs, r1, tk2⟩ := p2
    rw [hcs] at h
    simp only at h
    cases hrest : roomsLoop fuel cfg t b n r1 tk2 with
    | none => rw [hrest] at h; exact absurd h (by simp)
    | some p3 =>
    obtain ⟨rest, r2, tk3⟩ := p3
    rw [hrest] at h
    simp only [Option.some.injEq, Prod.mk.injEq] at h
    obtain ⟨rfl, -, -⟩ := h
    simp only [List.length_cons]
    rw [ih hrest]

theorem assignNpcs_length : ∀ (npcs : List Npc) (rooms : List Room) (rng : StdRng),
    (assignNpcs npcs rooms rng).1.length = rooms.length := by
  intro npcs
  induction npcs with
  | nil => intro rooms rng; rfl
  | cons npc rest ih =>
    intro rooms rng
    cases rooms with
    | nil => rw [assignNpcs]; exact ih [] rng
    | cons r rs =>
      rw [assignNpcs]
      simp only
      have hidx : (rng.next).1 % (r :: rs).length < (r :: rs).length :=
        Nat.mod_lt _ (by simp)
      rw [List.get?_eq_get hidx]
      simp only
      rw [ih, addNpcAt_length]

theorem addNpcAt_npcs : ∀ (rooms : List Room) (idx : Nat) (npc : Npc),
    idx < rooms.length →
    ((addNpcAt idx npc rooms).flatMap Room.npcs).Perm (npc :: rooms.flatMap Room.npcs) := by
  intro rooms
  induction rooms with
  | nil => intro idx npc h; simp at h
  | cons room rest ih =>
    intro idx npc h
    cases idx with
    | zero =>
      simp only [addNpcAt, List.flatMap_cons, List.append_assoc, List.singleton_append]
      exact List.perm_middle
    | succ k =>
      have hk : k < rest.length := by simpa using h
      simp only [addNpcAt, List.flatMap_cons]
      refine List.Perm.trans (List.Perm.append_left _ (ih k npc hk)) ?_
      exact List.perm_middle

theorem assignNpcs_npc_ids : ∀ (npcs : List Npc) (rooms : List Room) (rng : StdRng),
    (((assignNpcs npcs rooms rng).1.flatMap Room.npcs).map Npc.id).Perm
      ((if rooms.length = 0 then [] else npcs.map Npc.id)
        ++ (rooms.flatMap Room.npcs).map Npc.id) := by
  intro npcs
  induction npcs with
  | nil =>
    intro rooms rng
    simp [assignNpcs]
  | cons npc rest ih =>
    intro rooms rng
    cases rooms with
    | nil =>
      rw [assignNpcs]
      simpa using ih [] rng
    | cons r rs =>
      rw [assignNpcs]
      simp only
      have hidx : (rng.next).1 % (r :: rs).length < (r :: rs).length :=
        Nat.mod_lt _ (by simp)
      rw [List.get?_eq_get hidx]
      simp only
      have hIH := ih (addNpcAt ((rng.next).1 % (r :: rs).length)
        { npc with room_id := some ((r :: rs).get ⟨_, hidx⟩).id } (r :: rs)) (rng.next).2
      rw [addNpcAt_length] at hIH
      simp only [List.length_cons, if_neg (Nat.succ_ne_zero _)] at hIH ⊢
      have hadd := addNpcAt_npcs (r :: rs) ((rng.next).1 % (r :: rs).length)
        { npc with room_id := some ((r :: rs).get ⟨_, hidx⟩).id } hidx
      have hadd' := hadd.map Npc.id
      simp only [List.map_cons] at hadd'
      refine (hIH.trans (List.Perm.append_left _ hadd')).trans ?_
      simp only [List.map_cons, List.cons_append]
      exact List.perm_middle

/-- Every NPC in the room records that room's id. -/
def RoomOk (room : Room) : Prop := ∀ np ∈ room.npcs, np.room_id = some room.id

theorem addNpcAt_roomok : ∀ (rooms : List Room) (idx : Nat) (npc : Npc),
    (∀ room0, rooms.get? idx = some room0 → npc.room_id = some room0.id) →
    (∀ room ∈ rooms, RoomOk room) →
    ∀ room ∈ addNpcAt idx npc rooms, RoomOk room := by
  intro rooms
  induction rooms with
  | nil => intro idx npc _ _ room hroom; simp [addNpcAt] at hroom
  | cons r rs ih =>
    intro idx npc hid hok room hroom
    cases idx with
    | zero =>
      rcases List.mem_cons.mp hroom with he | hm
      · subst he
        intro np hnp
        simp only at hnp
        rcases List.mem_append.mp hnp with hold | hnew
        · exact hok r (List.mem_cons_self _ _) np hold
        · rw [List.mem_singleton.mp hnew]
          exact hid r rfl
      · exact hok room (List.mem_cons_of_mem _ hm)
    | succ k =>
      rcases List.mem_cons.mp hroom with he | hm
      · subst he
        exact hok room (List.mem_cons_self _ _)
      · exact ih k npc (fun room0 h0 => hid room0 h0) (fun rr hrr =>
          hok rr (List.mem_cons_of_mem _ hrr)) room hm

theorem assignNpcs_roomok : ∀ (npcs : List Npc) (rooms : List Room) (rng : StdRng),
    (∀ room ∈ rooms, RoomOk room) →
    ∀ room ∈ (assignNpcs npcs rooms rng).1, RoomOk room := by
  intro npcs
  induction npcs with
  | nil => intro rooms rng hok; exact hok
  | cons npc rest ih =>
    intro rooms rng hok
    cases rooms with
    | nil => rw [assignNpcs]; exact ih [] rng hok
    | cons r rs =>
      rw [assignNpcs]
      simp only
      have hidx : (rng.next).1 % (r :: rs).length < (r :: rs).length :=
        Nat.mod_lt _ (by simp)
      rw [List.get?_eq_get hidx]
      simp only
      refine ih _ _ ?_
      refine addNpcAt_roomok (r :: rs) _ _ ?_ hok
      intro room0 h0
      rw [List.get?_eq_get hidx] at h0
      simp only [Option.some.injEq] at h0
      rw [h0]

theorem flatMap_npcs_nil : ∀ {rooms : List Room},
    (∀ room ∈ rooms, room.npcs = []) → rooms.flatMap Room.npcs = [] := by
  intro rooms
  induction rooms with
  | nil => intro _; rfl
  | cons r rs ih =>
    intro h
    simp only [List.flatMap_cons]
    rw [h r (List.mem_cons_self _ _), ih (fun room hm => h room (List.mem_cons_of_mem _ hm))]
    rfl

/-- Structure of `generate_rooms`' result: the room count is a draw from
`[min_rooms, max_rooms)`; the NPCs found in the rooms are exactly the
input NPCs when there is at least one room and none at all otherwise; and
every placed NPC records the id of the room holding it. -/
theorem generate_rooms_npcs {fuel : Nat} {cfg : AppConfig} {t b : Nat}
    {rng r' : StdRng} {tk tk' : IdTracker} {npcs : List Npc} {rooms' : List Room}
    (h : generate_rooms fuel cfg rng tk t b npcs = some (rooms', r', tk')) :
    (cfg.min_rooms ≤ rooms'.length ∧ rooms'.length < cfg.max_rooms) ∧
    ((rooms'.flatMap Room.npcs).map Npc.id).Perm
      (if rooms' = [] then [] else npcs.map Npc.id) ∧
    (∀ room ∈ rooms', ∀ np ∈ room.npcs, np.room_id = some room.id) := by
  unfold generate_rooms at h
  cases hn : rng.genRange cfg.min_rooms cfg.max_rooms with
  | none => rw [hn] at h; exact absurd h (by simp)
  | some p =>
  obtain ⟨n, r1⟩ := p
  rw [hn] at h
  simp only at h
  cases hrl : roomsLoop fuel cfg t b n r1 tk with
  | none => rw [hrl] at h; exact absurd h (by simp)
  | some p2 =>
  obtain ⟨rooms, r2, tk1⟩ := p2
  rw [hrl] at h
  simp only [Option.some.injEq, Prod.mk.injEq] at h
  obtain ⟨rfl, -, rfl⟩ := h
  obtain ⟨-, hempty⟩ := roomsLoop_ids hrl
  have hlen0 := roomsLoop_length hrl
  obtain ⟨hlo, hhi⟩ := StdRng.genRange_bounds hn
  have hlen : (assignNpcs (shuffleList npcs.length r2 npcs).1 rooms
      (shuffleList npcs.length r2 npcs).2).1.length = rooms.length :=
    assignNpcs_length _ _ _
  refine ⟨by omega, ?_, ?_⟩
  · have hperm := assignNpcs_npc_ids (shuffleList npcs.length r2 npcs).1 rooms
      (shuffleList npcs.length r2 npcs).2
    rw [flatMap_npcs_nil hempty] at hperm
    simp only [List.map_nil, List.append_nil] at hperm
    have hshuf : ((shuffleList npcs.length r2 npcs).1.map Npc.id).Perm (npcs.map Npc.id) :=
      List.Perm.map Npc.id (shuffleList_perm npcs.length r2 npcs)
    have hiff : ((assignNpcs (shuffleList npcs.length r2 npcs).1 rooms
        (shuffleList npcs.length r2 npcs).2).1 = []) ↔ rooms.length = 0 := by
      rw [← List.length_eq_zero, hlen]
    by_cases hcase : rooms.length = 0
    · rw [if_pos (hiff.mpr hcase)]
      rw [if_pos hcase] at hperm
      simpa using hperm
    · rw [if_neg (fun hc => hcase (hiff.mp hc))]
      rw [if_neg hcase] at hperm
      exact hperm.trans hshuf
  · refine assignNpcs_roomok _ _ _ ?_
    intro room hroom np hnp
    rw [hempty room hroom] at hnp
    exact absurd hnp (List.not_mem_nil _)

theorem buildingsLoop_rules {fuel : Nat} {cfg : AppConfig} {wl : WordLists}
    {town_id grid : Nat} (hmin : 1 ≤ cfg.min_rooms) :
    ∀ {n : Nat} {pos : Nat × Nat} {rng r' : StdRng} {tk tk' : IdTracker}
      {bs : List Building},
      buildingsLoop fuel cfg wl town_id grid n pos rng tk = some (bs, r', tk') →
      ∀ b ∈ bs, CategoryRule cfg b := by
  intro n
  induction n with
  | zero =>
    intro pos rng r' tk tk' bs h
    simp only [buildingsLoop, Option.some.injEq, Prod.mk.injEq] at h
    obtain ⟨rfl, -, -⟩ := h
    intro b hb
    exact absurd hb (List.not_mem_nil _)
  | succ n ih =>
    intro pos rng r' tk tk' bs h
    rw [buildingsLoop] at h
    cases hid : IdTracker.get_new_id fuel cfg tk with
    | none => rw [hid] at h; exact absurd h (by simp)
    | some p1 =>
    obtain ⟨bid, tk1⟩ := p1
    rw [hid] at h
    simp only at h
    cases hkt : rng.genRange 0 4 with
    | none => rw [hkt] at h; exact absurd h (by simp)
    | some p2 =>
    obtain ⟨kt, r1⟩ := p2
    rw [hkt] at h
    simp only at h
    cases hbn : generate_building_name r1
        (if kt = 0 then BuildingType.Residence
          else if kt = 1 then BuildingType.Shop
          else if kt = 2 then BuildingType.Tavern
          else if kt = 3 then BuildingType.Temple else BuildingType.Residence) wl with
    | none => rw [hbn] at h; exact absurd h (by simp)
    | some p3 =>
    obtain ⟨bname, r2⟩ := p3
    rw [hbn] at h
    simp only at h
    cases hnp : generate_npcs fuel cfg wl r2 tk1 town_id bid bname
        (if kt = 0 then BuildingType.Residence
          else if kt = 1 then BuildingType.Shop
          else if kt = 2 then BuildingType.Tavern
          else if kt = 3 then BuildingType.Temple else BuildingType.Residence) with
    | none => rw [hnp] at h; exact absurd h (by simp)
    | some p4 =>
    obtain ⟨npcs, r3, tk2⟩ := p4
    rw [hnp] at h
    simp only at h
    cases hrm : generate_rooms fuel cfg r3 tk2 town_id bid npcs with
    | none => rw [hrm] at h; exact absurd h (by simp)
    | some p5 =>
    obtain ⟨rooms, r4, tk3⟩ := p5
    rw [hrm] at h
    simp only at h
    cases hrest : buildingsLoop fuel cfg wl town_id grid n
        (if pos.1 + 1 ≥ grid then (0, pos.2 + 1) else (pos.1 + 1, pos.2)) r4 tk3 with
    | none => rw [hrest] at h; exact absurd h (by simp)
    | some p6 =>
    obtain ⟨rest, r5, tk4⟩ := p6
    rw [hrest] at h
    simp only [Option.some.injEq, Prod.mk.injEq] at h
    obtain ⟨rfl, -, -⟩ := h
    intro b hb
    rcases List.mem_cons.mp hb with he | hm
    · subst he
      obtain ⟨⟨hrlo, -⟩, hperm, -⟩ := generate_rooms_npcs hrm
      have hne : rooms ≠ [] := by
        intro hnil
        rw [hnil] at hrlo
        simp at hrlo
        omega
      rw [if_neg hne] at hperm
      have hcount : inhabitants ⟨bid, bname,
          (if kt = 0 then BuildingType.Residence
            else if kt = 1 then BuildingType.Shop
            else if kt = 2 then BuildingType.Tavern
            else if kt = 3 then BuildingType.Temple else BuildingType.Residence),
          town_id, pos, rooms⟩ = npcs.length := by
        unfold inhabitants
        simp only
        rw [← List.length_map (rooms.flatMap Room.npcs) Npc.id, hperm.length_eq,
          List.length_map]
      obtain ⟨hshop, hres, hother⟩ := generate_npcs_count hnp
      refine ⟨fun hbt => ?_, fun hbt => ?_, fun hbt => ?_⟩
      · rw [hcount]
        exact hshop (by simpa using hbt)
      · rw [hcount]
        exact hres (by simpa using hbt)
      · rw [hcount]
        refine hother ?_
        simp only at hbt
        rcases hbt with hbt | hbt
        · exact Or.inl (by simpa using hbt)
        · exact Or.inr (by simpa using hbt)
    · exact ih hrest b hm

theorem townsLoop_rules {fuel : Nat} {cfg : AppConfig} {wl : WordLists}
    (hmin : 1 ≤ cfg.min_rooms) :
    ∀ {n : Nat} {rng r' : StdRng} {tk tk' : IdTracker} {towns : List Town},
      townsLoop fuel cfg wl n rng tk = some (towns, r', tk') →
      ∀ t ∈ towns, ∀ b ∈ t.buildings, CategoryRule cfg b := by
  intro n
  induction n with
  | zero =>
    intro rng r' tk tk' towns h
    simp only [townsLoop, Option.some.injEq, Prod.mk.injEq] at h
    obtain ⟨rfl, -, -⟩ := h
    intro t ht
    exact absurd ht (List.not_mem_nil _)
  | succ n ih =>
    intro rng r' tk tk' towns h
    rw [townsLoop] at h
    cases hid : IdTracker.get_new_id fuel cfg tk with
    | none => rw [hid] at h; exact absurd h (by simp)
    | some p1 =>
    obtain ⟨tid, tk1⟩ := p1
    rw [hid] at h
    simp only at h
    cases hnb : rng.genRange cfg.min_buildings cfg.max_buildings with
    | none => rw [hnb] at h; exact absurd h (by simp)
    | some p2 =>
    obtain ⟨nb, r1⟩ := p2
    rw [hnb] at h
    simp only at h
    cases hbs : generate_buildings fuel cfg wl r1 tk1 tid nb with
    | none => rw [hbs] at h; exact absurd h (by simp)
    | some p3 =>
    obtain ⟨bs, r2, tk2⟩ := p3
    rw [hbs] at h
    simp only at h
    cases htn : generate_town_name r2 wl with
    | none => rw [htn] at h; exact absurd h (by simp)
    | some p4 =>
    obtain ⟨tname, r3⟩ := p4
    rw [htn] at h
    simp only at h
    cases hrest : townsLoop fuel cfg wl n r3 tk2 with
    | none => rw [hrest] at h; exact absurd h (by simp)
    | some p5 =>
    obtain ⟨rest, r4, tk3⟩ := p5
    rw [hrest] at h
    simp only [Option.some.injEq, Prod.mk.injEq] at h
    obtain ⟨rfl, -, -⟩ := h
    intro t ht
    rcases List.mem_cons.mp ht with he | hm
    · subst he
      intro b hb
      exact buildingsLoop_rules hmin hbs b hb
    · exact ih hrest t hm

/-- `generate_towns` returns the towns produced by the town loop. -/
theorem generate_towns_parts {fuel : Nat} {cfg : AppConfig} {wl : WordLists}
    {rng r' : StdRng} {tk tk' : IdTracker} {g : TownGraph} {towns : List Town}
    (h : generate_towns fuel cfg wl rng tk = some (g, towns, r', tk')) :
    ∃ r1 tk1, townsLoop fuel cfg wl cfg.num_of_towns rng tk = some (towns, r1, tk1) := by
  unfold generate_towns at h
  cases hloop : townsLoop fuel cfg wl cfg.num_of_towns rng tk with
  | none => rw [hloop] at h; exact absurd h (by simp)
  | some p1 =>
  obtain ⟨towns0, r1, tk1⟩ := p1
  rw [hloop] at h
  simp only at h
  cases hgr : generate_graph cfg r1 towns0 with
  | none => rw [hgr] at h; exact absurd h (by simp)
  | some p2 =>
  obtain ⟨graph, nodes, r2⟩ := p2
  rw [hgr] at h
  simp only [Option.some.injEq, Prod.mk.injEq] at h
  obtain ⟨-, htowns, -, -⟩ := h
  obtain ⟨hnodes, hns⟩ := generate_graph_nodes hgr
  refine ⟨r1, tk1, ?_⟩
  have hteq : towns = towns0 := by
    rw [← htowns, hns, hnodes, range_filterMap_get]
  subst hteq
  rfl

/-- Configuration that always draws zero rooms per building. -/
def c5cfg : AppConfig :=
  { baseCfg with
    min_rooms := 0
    max_rooms := 1 }

/-- C5 counterexample: with `min_rooms = 0, max_rooms = 1` every building
gets zero rooms, and the generated world contains a Shop building whose
rooms hold 0 inhabitants, not the claimed exactly 1 (the single
generated shopkeeper is discarded at room-assignment time). -/
theorem c5_counterexample :
    ∃ graph towns world, generate_world 1 c5cfg wl1 idFam 7 = some (graph, towns, world) ∧
      ∃ p ∈ world.buildings, p.2.building_type = BuildingType.Shop ∧
        (p.2.rooms.flatMap Room.npcs).length = 0 := by
  refine ⟨_, _, _, rfl, ?_⟩
  decide

/-- C5 (amended): the generated inhabitant count per building follows the
category rule (Shop exactly 1, Residence exactly 2, Tavern/Temple a count
in `[min_npcs, max_npcs)`), and these inhabitants are exactly what the
building's rooms hold provided the building has at least one room — which
`min_rooms ≥ 1` guarantees.  (With `min_rooms = 0`, a zero-room building
discards its inhabitants and the rule fails for the placed counts.) -/
theorem c5_category_rules {fuel : Nat} {cfg : AppConfig} {wl : WordLists}
    {g : Nat → Nat → Nat} {seed : Nat} {graph : TownGraph} {towns : List Town}
    {world : World} (hmin : 1 ≤ cfg.min_rooms)
    (h : generate_world fuel cfg wl g seed = some (graph, towns, world)) :
    (∀ t ∈ towns, ∀ b ∈ t.buildings, CategoryRule cfg b) ∧
    (∀ p ∈ world.buildings, CategoryRule cfg p.2) := by
  unfold generate_world at h
  cases ht : generate_towns fuel cfg wl (StdRng.ofSeed g seed) (IdTracker.new g seed) with
  | none => rw [ht] at h; exact absurd h (by simp)
  | some p =>
  obtain ⟨graph0, towns0, r1, tk1⟩ := p
  rw [ht] at h
  simp only [Option.some.injEq, Prod.mk.injEq] at h
  obtain ⟨-, rfl, rfl⟩ := h
  obtain ⟨r2, tk2, hloop⟩ := generate_towns_parts ht
  have hrules := townsLoop_rules hmin hloop
  refine ⟨hrules, ?_⟩
  intro p hp
  unfold mkWorld at hp
  simp only at hp
  obtain ⟨t, htm, hp1⟩ := List.mem_flatMap.mp hp
  obtain ⟨b, hbm, hpe⟩ := List.mem_map.mp hp1
  rw [← hpe]
  exact hrules t htm b hbm

/-- C5 witness: the amended rule evaluated on a concrete one-town run
(`min_rooms = 1`). -/
theorem c5_category_rules_witness :
    ∃ graph towns world, generate_world 2 baseCfg wl1 idFam 7 = some (graph, towns, world) ∧
      (∀ t ∈ towns, ∀ b ∈ t.buildings, CategoryRule baseCfg b) ∧
      (∀ p ∈ world.buildings, CategoryRule baseCfg p.2) :=
  ⟨_, _, _, rfl, @c5_category_rules 2 baseCfg wl1 idFam 7 _ _ _ (by decide) rfl⟩

/-- The NPC used in the C10 witness before placement. -/
def npcIn : Npc := ⟨5, "N", NpcSex.Male, NpcRace.Human, 1, 2, none⟩

/-- A concrete placed town tree for the C10 witness. -/
def town0 : Town :=
  ⟨1, "T", (0, 0), 1,
    [⟨2, "B", BuildingType.Shop, 1, (0, 0),
      [⟨9, 1, 2, [⟨5, "N", NpcSex.Male, NpcRace.Human, 1, 2, some 9⟩], []⟩]⟩]⟩

/-- C10: NPCs generated for a building survive room assignment exactly
when the building has at least one room: the ids found in the rooms are
a permutation of the generated ids when rooms exist and the empty list
when the drawn room count is zero (the NPCs are silently discarded — the
call still succeeds); every placed NPC records its room's id; and the
World npc index only contains NPCs that sit inside some room of the town
tree, so a discarded NPC appears in no room and in no index entry. -/
theorem c10_zero_rooms_discard :
    (∀ (fuel : Nat) (cfg : AppConfig) (rng r' : StdRng) (tk tk' : IdTracker)
      (t b : Nat) (npcs : List Npc) (rooms' : List Room),
      generate_rooms fuel cfg rng tk t b npcs = some (rooms', r', tk') →
        ((rooms'.flatMap Room.npcs).map Npc.id).Perm
          (if rooms' = [] then [] else npcs.map Npc.id) ∧
        ∀ room ∈ rooms', ∀ np ∈ room.npcs, np.room_id = some room.id) ∧
    (∀ (towns : List Town) (p : Nat × Npc), p ∈ (mkWorld towns).npcs →
      ∃ t ∈ towns, ∃ b ∈ t.buildings, ∃ room ∈ b.rooms,
        p.2 ∈ room.npcs ∧ p.1 = p.2.id) := by
  constructor
  · intro fuel cfg rng r' tk tk' t b npcs rooms' h
    obtain ⟨-, hperm, hok⟩ := generate_rooms_npcs h
    exact ⟨hperm, hok⟩
  · intro towns p hp
    unfold mkWorld at hp
    simp only at hp
    obtain ⟨t, htm, hp1⟩ := List.mem_flatMap.mp hp
    obtain ⟨b, hbm, hp2⟩ := List.mem_flatMap.mp hp1
    obtain ⟨room, hroom, hp3⟩ := List.mem_flatMap.mp hp2
    obtain ⟨np, hnp, hpe⟩ := List.mem_map.mp hp3
    refine ⟨t, htm, b, hbm, room, hroom, ?_, ?_⟩
    · rw [← hpe]
      exact hnp
    · rw [← hpe]

/-- C10 witness: a concrete `generate_rooms` run that places one NPC, and
the index fact at a concrete one-town tree. -/
theorem c10_zero_rooms_discard_witness :
    (∃ rooms' r' tk', generate_rooms 2 baseCfg rng0 tk0 1 2 [npcIn] = some (rooms', r', tk') ∧
      ((rooms'.flatMap Room.npcs).map Npc.id).Perm
        (if rooms' = [] then [] else [npcIn].map Npc.id) ∧
      ∀ room ∈ rooms', ∀ np ∈ room.npcs, np.room_id = some room.id) ∧
    (∃ t ∈ [town0], ∃ b ∈ t.buildings, ∃ room ∈ b.rooms,
      (⟨5, "N", NpcSex.Male, NpcRace.Human, 1, 2, some 9⟩ : Npc) ∈ room.npcs ∧
        (5 : Nat) = (⟨5, "N", NpcSex.Male, NpcRace.Human, 1, 2, some 9⟩ : Npc).id) := by
  constructor
  · exact ⟨_, _, _, rfl, c10_zero_rooms_discard.1 2 baseCfg rng0 _ tk0 _ 1 2 [npcIn] _ rfl⟩
  · exact c10_zero_rooms_discard.2 [town0]
      (5, ⟨5, "N", NpcSex.Male, NpcRace.Human, 1, 2, some 9⟩) (by decide)

/-! ### C6 — textual codec round trip -/

/-- Names that avoid the codec's delimiter characters: no quote, no
bracket, no newline, no equals sign, no dash. -/
def GoodName (l : List Char) : Prop :=
  '"' ∉ l ∧ '[' ∉ l ∧ '\n' ∉ l ∧ '=' ∉ l ∧ '-' ∉ l

instance : DecidablePred GoodName := fun l => by
  unfold GoodName
  infer_instance

theorem digitChar_isDigit {k : Nat} (h : k < 10) : (digitChar k).isDigit = true := by
  interval_cases k <;> rfl

theorem digitChar_toNat {k : Nat} (h : k < 10) : (digitChar k).toNat = 48 + k := by
  interval_cases k <;> rfl

/-- Structure of the decimal printout: nonempty, all digits, and the
standard left fold re-computes the number. -/
theorem toDec_spec : ∀ n : Nat, toDec n ≠ [] ∧ (∀ ch ∈ toDec n, ch.isDigit = true) ∧
    (toDec n).foldl (fun a ch => a * 10 + (ch.toNat - 48)) 0 = n := by
  intro n
  induction n using Nat.strong_induction_on with
  | _ n ih =>
    by_cases h : n < 10
    · rw [toDec, dif_pos h]
      refine ⟨by simp, ?_, ?_⟩
      · intro ch hch
        rw [List.mem_singleton.mp hch]
        exact digitChar_isDigit h
      · simp only [List.foldl_cons, List.foldl_nil]
        rw [digitChar_toNat h]
        omega
    · rw [toDec, dif_neg h]
      obtain ⟨hne, hdig, hval⟩ := ih (n / 10) (Nat.div_lt_self (by omega) (by omega))
      refine ⟨by simp, ?_, ?_⟩
      · intro ch hch
        rcases List.mem_append.mp hch with hm | hm
        · exact hdig ch hm
        · rw [List.mem_singleton.mp hm]
          exact digitChar_isDigit (Nat.mod_lt _ (by omega))
      · rw [List.foldl_append, hval]
        simp only [List.foldl_cons, List.foldl_nil]
        rw [digitChar_toNat (Nat.mod_lt _ (by omega))]
        omega

/-- Digit characters are none of the delimiter or whitespace characters
the codec cares about. -/
theorem digit_props {ch : Char} (h : ch.isDigit = true) :
    isWsChar ch = false ∧ ch ≠ '"' ∧ ch ≠ '[' ∧ ch ≠ '\n' ∧ ch ≠ '=' ∧
      ch ≠ '-' ∧ ch ≠ '/' ∧ ch ≠ '+' ∧ ch ≠ ']' ∧ ch ≠ ';' := by
  have hv : 48 ≤ ch.toNat ∧ ch.toNat ≤ 57 := by
    unfold Char.isDigit at h
    simp only [Bool.and_eq_true, decide_eq_true_eq] at h
    exact ⟨h.1, h.2⟩
  have hne : ∀ (x : Char), x.toNat < 48 ∨ 57 < x.toNat → ch ≠ x := by
    intro x hx he
    subst he
    omega
  refine ⟨?_, hne _ (by decide), hne _ (by decide), hne _ (by decide),
    hne _ (by decide), hne _ (by decide), hne _ (by decide), hne _ (by decide),
    hne _ (by decide), hne _ (by decide)⟩
  unfold isWsChar
  have h1 : (ch == ' ') = false := by
    simp only [beq_eq_false_iff_ne]
    exact hne _ (by decide)
  have h2 : (ch == '\t') = false := by
    simp only [beq_eq_false_iff_ne]
    exact hne _ (by decide)
  have h3 : (ch == '\n') = false := by
    simp only [beq_eq_false_iff_ne]
    exact hne _ (by decide)
  have h4 : (ch == '\r') = false := by
    simp only [beq_eq_false_iff_ne]
    exact hne _ (by decide)
  rw [h1, h2, h3, h4]
  rfl

/-- Parsing inverts printing for `u32`-sized values. -/
theorem parseU32_toDec {n : Nat} (h : n < 2 ^ 32) : parseU32 (toDec n) = some n := by
  obtain ⟨hne, hdig, hval⟩ := toDec_spec n
  unfold parseU32
  have hhead : (toDec n).head? ≠ some '+' := by
    intro habs
    cases hd : toDec n with
    | nil => exact hne hd
    | cons a rest =>
      rw [hd] at habs
      simp only [List.head?_cons, Option.some.injEq] at habs
      have := hdig a (by rw [hd]; exact List.mem_cons_self _ _)
      rw [habs] at this
      exact absurd this (by decide)
  rw [if_neg hhead]
  rw [if_pos ⟨hne, List.all_eq_true.mpr (fun c hc => hdig c hc)⟩]
  rw [hval, if_pos h]

theorem dropWhile_append_all {p : Char → Bool} :
    ∀ {P R : List Char}, (∀ ch ∈ P, p ch = true) →
      (P ++ R).dropWhile p = R.dropWhile p := by
  intro P
  induction P with
  | nil => intro R _; rfl
  | cons a P' ih =>
    intro R hall
    rw [List.cons_append, List.dropWhile_cons,
      if_pos (hall a (List.mem_cons_self _ _))]
    exact ih (fun ch hch => hall ch (List.mem_cons_of_mem _ hch))

theorem takeWhile_append_stop {p : Char → Bool} :
    ∀ {X : List Char} {a : Char} {R : List Char}, (∀ ch ∈ X, p ch = true) →
      p a = false → (X ++ a :: R).takeWhile p = X := by
  intro X
  induction X with
  | nil =>
    intro a R _ ha
    simp [List.takeWhile_cons, ha]
  | cons x X' ih =>
    intro a R hall ha
    rw [List.cons_append, List.takeWhile_cons, hall x (List.mem_cons_self _ _)]
    simp only [if_true]
    rw [ih (fun ch hch => hall ch (List.mem_cons_of_mem _ hch)) ha]

/-- `str::trim` on a string that is all-whitespace padding around a core
whose first and last characters are not whitespace returns the core. -/
theorem trimChars_sandwich {P core Q : List Char} {a b : Char}
    (hP : ∀ ch ∈ P, isWsChar ch = true) (hQ : ∀ ch ∈ Q, isWsChar ch = true)
    (hhead : core.head? = some a) (ha : isWsChar a = false)
    (hlast : core.getLast? = some b) (hb : isWsChar b = false) :
    trimChars (P ++ core ++ Q) = core := by
  unfold trimChars
  obtain ⟨core', rfl⟩ : ∃ core', core = a :: core' := by
    cases core with
    | nil => exact absurd hhead (by simp)
    | cons x xs =>
      simp only [List.head?_cons, Option.some.injEq] at hhead
      exact ⟨xs, by rw [hhead]⟩
  rw [List.append_assoc, dropWhile_append_all hP]
  rw [List.cons_append, List.dropWhile_cons, if_neg (by rw [ha]; simp)]
  rw [← List.cons_append]
  have hcb : (a :: core').getLast? = some b := hlast
  have hdecomp : a :: core' = (a :: core').dropLast ++ [b] := by
    have hne : a :: core' ≠ [] := by simp
    conv_lhs => rw [← List.dropLast_append_getLast hne]
    rw [List.getLast?_eq_getLast _ hne] at hcb
    simp only [Option.some.injEq] at hcb
    rw [hcb]
  have hrev : (a :: core').reverse = b :: (a :: core').dropLast.reverse := by
    conv_lhs => rw [hdecomp]
    simp
  rw [List.reverse_append, hrev]
  rw [dropWhile_append_all (fun ch hch => hQ ch (List.mem_reverse.mp hch))]
  rw [List.dropWhile_cons, if_neg (by rw [hb]; simp)]
  rw [List.reverse_cons, List.reverse_reverse, ← hdecomp]

/-- `trim_matches('"')` strips exactly the two enclosing quotes of a
quote-free payload. -/
theorem trimQuotes_quoted {X : List Char} (hX : '"' ∉ X) :
    trimQuotes ('"' :: X ++ ['"']) = X := by
  unfold trimQuotes
  rw [List.cons_append, List.dropWhile_cons, if_pos (by simp)]
  cases X with
  | nil => rfl
  | cons x X' =>
    have hx : x ≠ '"' := fun he => hX (he ▸ List.mem_cons_self _ _)
    rw [List.cons_append, List.dropWhile_cons, if_neg (by simp [hx])]
    have hXne : x :: X' ≠ [] := by simp
    have hbmem : (x :: X').getLast hXne ∈ x :: X' := List.getLast_mem hXne
    obtain ⟨D, bb, hdecomp, hbb⟩ :
        ∃ D bb, x :: X' = D ++ [bb] ∧ bb ≠ '"' := by
      refine ⟨(x :: X').dropLast, (x :: X').getLast hXne, ?_, ?_⟩
      · rw [List.dropLast_append_getLast hXne]
      · exact fun he => hX (he ▸ hbmem)
    have h1 : ((x :: X') ++ ['"']).reverse = '"' :: (x :: X').reverse := by simp
    rw [← List.cons_append, h1, List.dropWhile_cons, if_pos (by simp)]
    have hrev : (x :: X').reverse = bb :: D.reverse := by
      conv_lhs => rw [hdecomp]
      simp
    rw [hrev, List.dropWhile_cons, if_neg (by simp [hbb])]
    rw [List.reverse_cons, List.reverse_reverse, ← hdecomp]

theorem splitDDAux_no : ∀ {A : List Char} (acc : List Char), '-' ∉ A →
    splitDDAux acc A = [acc.reverse ++ A] := by
  intro A
  induction A with
  | nil => intro acc _; simp [splitDDAux]
  | cons c1 A' ih =>
    intro acc hA
    have hc1 : c1 ≠ '-' := fun he => hA (he ▸ List.mem_cons_self _ _)
    have hA' : '-' ∉ A' := fun hm => hA (List.mem_cons_of_mem _ hm)
    cases A' with
    | nil => simp [splitDDAux]
    | cons c2 A'' =>
      rw [splitDDAux, if_neg (by simp [hc1])]
      rw [ih (c1 :: acc) hA']
      simp

theorem splitDDAux_sep : ∀ {A : List Char} (acc B : List Char), '-' ∉ A →
    splitDDAux acc (A ++ '-' :: '-' :: B) = (acc.reverse ++ A) :: splitDDAux [] B := by
  intro A
  induction A with
  | nil =>
    intro acc B _
    show splitDDAux acc ('-' :: '-' :: B) = (acc.reverse ++ []) :: splitDDAux [] B
    rw [splitDDAux, if_pos ⟨rfl, rfl⟩, List.append_nil]
  | cons c1 A' ih =>
    intro acc B hA
    have hc1 : c1 ≠ '-' := fun he => hA (he ▸ List.mem_cons_self _ _)
    have hA' : '-' ∉ A' := fun hm => hA (List.mem_cons_of_mem _ hm)
    cases A' with
    | nil =>
      show splitDDAux acc (c1 :: '-' :: '-' :: B) = (acc.reverse ++ [c1]) :: splitDDAux [] B
      rw [splitDDAux, if_neg (by simp [hc1])]
      rw [splitDDAux, if_pos ⟨rfl, rfl⟩]
      simp
    | cons c2 A'' =>
      show splitDDAux acc (c1 :: c2 :: (A'' ++ '-' :: '-' :: B))
        = (acc.reverse ++ c1 :: c2 :: A'') :: splitDDAux [] B
      rw [splitDDAux, if_neg (by simp [hc1])]
      rw [show c2 :: (A'' ++ '-' :: '-' :: B) = (c2 :: A'') ++ '-' :: '-' :: B from rfl]
      rw [ih (c1 :: acc) B hA']
      simp

theorem hasDD_sep : ∀ (A B : List Char), hasDD (A ++ '-' :: '-' :: B) = true := by
  intro A
  induction A with
  | nil => intro B; simp [hasDD]
  | cons c1 A' ih =>
    intro B
    cases A' with
    | nil =>
      show hasDD (c1 :: '-' :: '-' :: B) = true
      simp [hasDD]
    | cons c2 A'' =>
      show hasDD (c1 :: c2 :: (A'' ++ '-' :: '-' :: B)) = true
      have hih := ih B
      rw [show (c2 :: A'') ++ '-' :: '-' :: B = c2 :: (A'' ++ '-' :: '-' :: B) from rfl] at hih
      rw [hasDD, hih]
      simp

theorem splitSlashAux_no : ∀ {A : List Char} (acc : List Char), '/' ∉ A →
    splitSlashAux acc A = [acc.reverse ++ A] := by
  intro A
  induction A with
  | nil => intro acc _; simp [splitSlashAux]
  | cons c A' ih =>
    intro acc hA
    have hc : c ≠ '/' := fun he => hA (he ▸ List.mem_cons_self _ _)
    rw [splitSlashAux, if_neg hc]
    rw [ih (c :: acc) (fun hm => hA (List.mem_cons_of_mem _ hm))]
    simp

theorem splitSlashAux_sep : ∀ {A : List Char} (acc B : List Char), '/' ∉ A →
    splitSlashAux acc (A ++ '/' :: B) = (acc.reverse ++ A) :: splitSlashAux [] B := by
  intro A
  induction A with
  | nil =>
    intro acc B _
    show splitSlashAux acc ('/' :: B) = (acc.reverse ++ []) :: splitSlashAux [] B
    rw [splitSlashAux, if_pos rfl, List.append_nil]
  | cons c A' ih =>
    intro acc B hA
    have hc : c ≠ '/' := fun he => hA (he ▸ List.mem_cons_self _ _)
    show splitSlashAux acc (c :: (A' ++ '/' :: B)) = (acc.reverse ++ c :: A') :: splitSlashAux [] B
    rw [splitSlashAux, if_neg hc]
    rw [ih (c :: acc) B (fun hm => hA (List.mem_cons_of_mem _ hm))]
    simp

theorem isLabelQuoteHead_shape {l : List Char} (h : isLabelQuoteHead l = true) :
    ∃ rest, l = 'l' :: 'a' :: 'b' :: 'e' :: 'l' :: '=' :: '"' :: rest := by
  unfold isLabelQuoteHead at h
  split at h
  · next rest => exact ⟨_, rfl⟩
  · exact absurd h (by simp)

theorem afterLabelQuote_marker : ∀ {P : List Char} (Q : List Char), '=' ∉ P →
    afterLabelQuote (P ++ 'l' :: 'a' :: 'b' :: 'e' :: 'l' :: '=' :: '"' :: Q) = some Q := by
  intro P
  induction P with
  | nil =>
    intro Q _
    rfl
  | cons p P' ih =>
    intro Q hne
    rw [List.cons_append, afterLabelQuote]
    rw [if_neg ?_]
    · exact ih Q (fun hm => hne (List.mem_cons_of_mem _ hm))
    · intro habs
      obtain ⟨rest, hshape⟩ := isLabelQuoteHead_shape habs
      apply hne
      rcases P' with - | ⟨x1, P1⟩
      · simp at hshape
      rcases P1 with - | ⟨x2, P2⟩
      · simp at hshape
      rcases P2 with - | ⟨x3, P3⟩
      · simp at hshape
      rcases P3 with - | ⟨x4, P4⟩
      · simp at hshape
      rcases P4 with - | ⟨x5, P5⟩
      · simp at hshape
      · simp only [List.cons_append, List.cons.injEq] at hshape
        obtain ⟨-, -, -, -, -, h6, -⟩ := hshape
        simp [h6]

theorem containsLabelEq_marker : ∀ {P : List Char} (Q : List Char),
    containsLabelEq (P ++ '[' :: 'l' :: 'a' :: 'b' :: 'e' :: 'l' :: '=' :: Q) = true := by
  intro P
  induction P with
  | nil =>
    intro Q
    rw [List.nil_append, containsLabelEq]
    rfl
  | cons p P' ih =>
    intro Q
    rw [List.cons_append, containsLabelEq, ih Q]
    simp

theorem stripCR_eq {l : List Char} (h : l.getLast? ≠ some '\r') : stripCR l = l := by
  unfold stripCR
  split
  · next heq => exact absurd heq h
  · rfl

theorem splitLinesAux_sep : ∀ {A : List Char} (acc rest : List Char), '\n' ∉ A →
    splitLinesAux acc (A ++ '\n' :: rest)
      = stripCR (acc.reverse ++ A) :: splitLinesAux [] rest := by
  intro A
  induction A with
  | nil =>
    intro acc rest _
    rw [List.nil_append, splitLinesAux, if_pos rfl, List.append_nil]
  | cons c A' ih =>
    intro acc rest hA
    have hc : c ≠ '\n' := fun he => hA (he ▸ List.mem_cons_self _ _)
    rw [List.cons_append, splitLinesAux, if_neg hc]
    rw [ih (c :: acc) rest (fun hm => hA (List.mem_cons_of_mem _ hm))]
    simp

/-- `str::lines` recovers the individual lines of newline-terminated
text. -/
theorem splitLines_build : ∀ (ls : List (List Char)),
    (∀ l ∈ ls, '\n' ∉ l ∧ l.getLast? ≠ some '\r') →
    splitLines (ls.flatMap (fun l => l ++ ['\n'])) = ls := by
  intro ls
  induction ls with
  | nil => intro _; rfl
  | cons l ls' ih =>
    intro hall
    obtain ⟨hnl, hcr⟩ := hall l (List.mem_cons_self _ _)
    unfold splitLines
    rw [List.flatMap_cons, List.append_assoc, List.singleton_append]
    rw [splitLinesAux_sep _ _ hnl]
    rw [List.reverse_nil, List.nil_append, stripCR_eq hcr]
    rw [show splitLinesAux [] (ls'.flatMap fun l => l ++ ['\n'])
      = splitLines (ls'.flatMap fun l => l ++ ['\n']) from rfl]
    rw [ih (fun x hx => hall x (List.mem_cons_of_mem _ hx))]

/-- The label text `save_graph` embeds between `label="` and the closing
quote: `<dist> m / <cost> gold`. -/
def labelBody (d c : Nat) : List Char :=
  toDec d ++ ' ' :: 'm' :: ' ' :: '/' :: ' ' :: (toDec c ++ [' ', 'g', 'o', 'l', 'd'])

/-- Everything after the `label="` marker on an edge line. -/
def lineTail (d c : Nat) : List Char :=
  labelBody d c ++ '"' :: ',' :: ' ' :: 'l' :: 'e' :: 'n' :: '=' ::
    (toDec (d / 10) ++ [']', ';'])

/-- The target-and-label half of an edge line (after the `-- ` and the
surrounding whitespace). -/
def talOf (t : List Char) (d c : Nat) : List Char :=
  '"' :: (t ++ '"' :: ' ' :: '[' :: 'l' :: 'a' :: 'b' :: 'e' :: 'l' :: '=' :: '"' ::
    lineTail d c)

/-- A whole edge line with its leading indentation stripped. -/
def coreOf (s t : List Char) (d c : Nat) : List Char :=
  '"' :: (s ++ '"' :: ' ' :: '-' :: '-' :: ' ' :: talOf t d c)

theorem gl_append {l m : List Char} {b : Char} (h : m.getLast? = some b) :
    (l ++ m).getLast? = some b := by
  rw [← List.head?_reverse] at h ⊢
  rw [List.reverse_append]
  cases hm : m.reverse with
  | nil => rw [hm] at h; exact absurd h (by simp)
  | cons x xs =>
    rw [hm] at h
    simp only [List.head?_cons] at h
    simpa using h

theorem gl_cons {l : List Char} {a b : Char} (h : l.getLast? = some b) :
    (a :: l).getLast? = some b :=
  @gl_append [a] l b h

theorem lineTail_getLast {d c : Nat} : (lineTail d c).getLast? = some ';' := by
  unfold lineTail
  apply gl_append
  repeat apply gl_cons
  apply gl_append
  rfl

theorem talOf_getLast {t : List Char} {d c : Nat} :
    (talOf t d c).getLast? = some ';' := by
  unfold talOf
  apply gl_cons
  apply gl_append
  repeat apply gl_cons
  exact lineTail_getLast

theorem coreOf_getLast {s t : List Char} {d c : Nat} :
    (coreOf s t d c).getLast? = some ';' := by
  unfold coreOf
  apply gl_cons
  apply gl_append
  apply gl_cons
  apply gl_cons
  apply gl_cons
  apply gl_cons
  apply gl_cons
  exact talOf_getLast

theorem formatEdgeLine_shape (s t : List Char) (d c : Nat) :
    formatEdgeLine s t d c = ' ' :: ' ' :: ' ' :: ' ' :: coreOf s t d c := by
  unfold formatEdgeLine coreOf talOf lineTail labelBody
  have h1 : "    \"".toList = [' ', ' ', ' ', ' ', '"'] := rfl
  have h2 : "\" -- \"".toList = ['"', ' ', '-', '-', ' ', '"'] := rfl
  have h3 : "\" [label=\"".toList = ['"', ' ', '[', 'l', 'a', 'b', 'e', 'l', '=', '"'] := rfl
  have h4 : " m / ".toList = [' ', 'm', ' ', '/', ' '] := rfl
  have h5 : " gold\", len=".toList
      = [' ', 'g', 'o', 'l', 'd', '"', ',', ' ', 'l', 'e', 'n', '='] := rfl
  have h6 : "];".toList = [']', ';'] := rfl
  rw [h1, h2, h3, h4, h5, h6]
  simp [List.append_assoc]

/-- No character of a printed natural is anything but a digit. -/
theorem not_mem_toDec {n : Nat} {x : Char} (hx : x.isDigit = false) : x ∉ toDec n := by
  intro hm
  rw [(toDec_spec n).2.1 x hm] at hx
  exact absurd hx (by decide)

theorem trim_formatEdgeLine {s t : List Char} (d c : Nat) :
    trimChars (formatEdgeLine s t d c) = coreOf s t d c := by
  rw [formatEdgeLine_shape]
  rw [show ' ' :: ' ' :: ' ' :: ' ' :: coreOf s t d c
      = [' ', ' ', ' ', ' '] ++ coreOf s t d c ++ [] from by simp]
  exact trimChars_sandwich (by decide) (by simp) rfl (by decide) coreOf_getLast (by decide)

theorem source_extract {s : List Char} (hsq : '"' ∉ s) :
    trimQuotes (trimChars ('"' :: s ++ ['"', ' '])) = s := by
  have h1 : trimChars ('"' :: s ++ ['"', ' ']) = '"' :: s ++ ['"'] := by
    rw [show '"' :: s ++ ['"', ' '] = [] ++ ('"' :: s ++ ['"']) ++ [' '] from by simp]
    exact trimChars_sandwich (by simp) (by decide) rfl (by decide)
      (gl_append rfl) (by decide)
  rw [h1]
  exact trimQuotes_quoted hsq

theorem tal_extract {t : List Char} (d c : Nat) :
    trimChars (' ' :: talOf t d c) = talOf t d c := by
  rw [show ' ' :: talOf t d c = [' '] ++ talOf t d c ++ [] from by simp]
  exact trimChars_sandwich (by decide) (by simp) rfl (by decide) talOf_getLast (by decide)

theorem target_extract {t : List Char} (htq : '"' ∉ t) (htb : '[' ∉ t) (d c : Nat) :
    trimQuotes (trimChars ((talOf t d c).takeWhile (fun ch => !(ch == '[')))) = t := by
  have hshape : talOf t d c = ('"' :: t ++ ['"', ' ']) ++
      '[' :: ('l' :: 'a' :: 'b' :: 'e' :: 'l' :: '=' :: '"' :: lineTail d c) := by
    unfold talOf; simp
  have htake : (talOf t d c).takeWhile (fun ch => !(ch == '[')) = '"' :: t ++ ['"', ' '] := by
    rw [hshape]
    apply takeWhile_append_stop
    · intro ch hch
      simp only [Bool.not_eq_true', beq_eq_false_iff_ne]
      intro heq
      subst heq
      revert hch
      simp +decide [htb]
    · decide
  rw [htake]
  exact source_extract htq

theorem tal_afterLabel {t : List Char} (hte : '=' ∉ t) (d c : Nat) :
    afterLabelQuote (talOf t d c) = some (lineTail d c) := by
  have hshape : talOf t d c = ('"' :: t ++ ['"', ' ', '[']) ++
      'l' :: 'a' :: 'b' :: 'e' :: 'l' :: '=' :: '"' :: lineTail d c := by
    unfold talOf; simp
  rw [hshape]
  apply afterLabelQuote_marker
  simp +decide [hte]

theorem trimChars_toDec {P Q R : List Char} {n : Nat} {b : Char}
    (hP : ∀ ch ∈ P, isWsChar ch = true) (hQ : ∀ ch ∈ Q, isWsChar ch = true)
    (hlast : (toDec n ++ R).getLast? = some b) (hb : isWsChar b = false) :
    trimChars (P ++ (toDec n ++ R) ++ Q) = toDec n ++ R := by
  obtain ⟨hne, hdig, -⟩ := toDec_spec n
  cases htd : toDec n with
  | nil => exact absurd htd hne
  | cons a rest =>
    have ha := (digit_props (hdig a (by rw [htd]; exact List.mem_cons_self _ _))).1
    rw [htd] at hlast
    exact trimChars_sandwich hP hQ rfl ha hlast hb

theorem labelBody_getLast {d c : Nat} : (labelBody d c).getLast? = some 'd' := by
  unfold labelBody
  apply gl_append
  apply gl_cons
  apply gl_cons
  apply gl_cons
  apply gl_cons
  apply gl_cons
  apply gl_append
  rfl

theorem label_extract (d c : Nat) :
    trimChars ((lineTail d c).takeWhile (fun ch => !(ch == '"'))) = labelBody d c := by
  have h1 : '"' ∉ toDec d := not_mem_toDec (by decide)
  have h2 : '"' ∉ toDec c := not_mem_toDec (by decide)
  have htake : (lineTail d c).takeWhile (fun ch => !(ch == '"')) = labelBody d c := by
    unfold lineTail
    apply takeWhile_append_stop
    · intro ch hch
      simp only [Bool.not_eq_true', beq_eq_false_iff_ne]
      intro heq
      subst heq
      revert hch
      simp +decide [labelBody, h1, h2]
    · decide
  rw [htake]
  have hlast : (toDec d ++ (' ' :: 'm' :: ' ' :: '/' :: ' ' ::
      (toDec c ++ [' ', 'g', 'o', 'l', 'd']))).getLast? = some 'd' := labelBody_getLast
  have h3 := @trimChars_toDec [] []
    (' ' :: 'm' :: ' ' :: '/' :: ' ' :: (toDec c ++ [' ', 'g', 'o', 'l', 'd'])) d 'd'
    (by simp) (by simp) hlast (by decide)
  conv_lhs => rw [show labelBody d c = [] ++ (toDec d ++ (' ' :: 'm' :: ' ' :: '/' :: ' ' ::
    (toDec c ++ [' ', 'g', 'o', 'l', 'd']))) ++ [] from by unfold labelBody; simp]
  exact h3

/-- `parse_edge_line` recovers exactly the source name, target name and
label text that `save_graph` printed, provided the names avoid the
delimiter characters of the format. -/
theorem parse_edge_line_format {s t : List Char} (hs : GoodName s) (ht : GoodName t)
    (d c : Nat) :
    parse_edge_line (formatEdgeLine s t d c) = some (s, t, labelBody d c) := by
  obtain ⟨hsq, hsb, hsn, hse, hsd⟩ := hs
  obtain ⟨htq, htb, htn, hte, htd⟩ := ht
  have hnd1 : '-' ∉ toDec d := not_mem_toDec (by decide)
  have hnd2 : '-' ∉ toDec c := not_mem_toDec (by decide)
  have hnd3 : '-' ∉ toDec (d / 10) := not_mem_toDec (by decide)
  have hcoreA : coreOf s t d c
      = ('"' :: s ++ ['"', ' ']) ++ '-' :: '-' :: (' ' :: talOf t d c) := by
    unfold coreOf; simp
  have hsplit : splitDD (coreOf s t d c) = ['"' :: s ++ ['"', ' '], ' ' :: talOf t d c] := by
    unfold splitDD
    rw [hcoreA, splitDDAux_sep _ _ (by simp +decide [hsd])]
    rw [splitDDAux_no _ (by simp +decide [htd, hnd1, hnd2, hnd3, talOf, lineTail, labelBody])]
    simp
  have hdd : hasDD (coreOf s t d c) = true := by
    rw [hcoreA]; exact hasDD_sep _ _
  have hcle : containsLabelEq (coreOf s t d c) = true := by
    rw [show coreOf s t d c
        = ('"' :: (s ++ '"' :: ' ' :: '-' :: '-' :: ' ' :: '"' :: t ++ ['"', ' ']))
          ++ '[' :: 'l' :: 'a' :: 'b' :: 'e' :: 'l' :: '=' :: ('"' :: lineTail d c) from by
      unfold coreOf talOf; simp]
    exact containsLabelEq_marker _
  have hbrk : '[' ∈ talOf t d c := by
    unfold talOf; simp
  have hqlt : '"' ∈ lineTail d c := by
    unfold lineTail; simp
  delta parse_edge_line
  rw [trim_formatEdgeLine]
  rw [if_pos (show ((match coreOf s t d c with | '"' :: _ => true | _ => false)
      && hasDD (coreOf s t d c) && containsLabelEq (coreOf s t d c)) = true from by
    rw [hdd, hcle]
    rfl)]
  rw [hsplit]
  show (if '[' ∈ trimChars (' ' :: talOf t d c) then
      match afterLabelQuote (trimChars (' ' :: talOf t d c)) with
      | none => none
      | some afterL =>
        if '"' ∈ afterL then
          some (trimQuotes (trimChars ('"' :: s ++ ['"', ' '])),
            trimQuotes (trimChars ((trimChars (' ' :: talOf t d c)).takeWhile
              (fun ch => !(ch == '[')))),
            trimChars (afterL.takeWhile (fun ch => !(ch == '"'))))
        else none
    else none) = some (s, t, labelBody d c)
  rw [tal_extract]
  rw [if_pos hbrk]
  rw [tal_afterLabel hte]
  show (if '"' ∈ lineTail d c then
      some (trimQuotes (trimChars ('"' :: s ++ ['"', ' '])),
        trimQuotes (trimChars ((talOf t d c).takeWhile (fun ch => !(ch == '[')))),
        trimChars ((lineTail d c).takeWhile (fun ch => !(ch == '"'))))
    else none) = some (s, t, labelBody d c)
  rw [if_pos hqlt]
  rw [source_extract hsq, target_extract htq htb, label_extract]

theorem firstWsToken_toDec {n : Nat} (R : List Char) :
    firstWsToken (toDec n ++ ' ' :: R) = some (toDec n) := by
  obtain ⟨hne, hdig, -⟩ := toDec_spec n
  cases htd : toDec n with
  | nil => exact absurd htd hne
  | cons a rest =>
    have ha : isWsChar a = false :=
      (digit_props (hdig a (by rw [htd]; exact List.mem_cons_self _ _))).1
    have hall : ∀ ch ∈ a :: rest, (!isWsChar ch) = true := by
      intro ch hch
      simp only [Bool.not_eq_true']
      exact (digit_props (hdig ch (by rw [htd]; exact hch))).1
    delta firstWsToken
    rw [show (a :: rest) ++ ' ' :: R = a :: (rest ++ ' ' :: R) from rfl,
      List.dropWhile_cons, if_neg (show ¬(isWsChar a = true) from by simp [ha]),
      show a :: (rest ++ ' ' :: R) = (a :: rest) ++ ' ' :: R from rfl,
      @takeWhile_append_stop (fun ch => !isWsChar ch) (a :: rest) ' ' R hall (by decide)]
    simp

/-- `JourneyInfo::from_label` inverts the label text `save_graph`
prints, for `u32`-sized distance and cost. -/
theorem from_label_format {d c : Nat} (hd32 : d < 2 ^ 32) (hc32 : c < 2 ^ 32) :
    JourneyInfo.from_label (labelBody d c) = some ⟨d, c⟩ := by
  have hnd1 : '/' ∉ toDec d := not_mem_toDec (by decide)
  have hnd2 : '/' ∉ toDec c := not_mem_toDec (by decide)
  have hsplit : splitSlash (labelBody d c)
      = [toDec d ++ [' ', 'm', ' '], ' ' :: (toDec c ++ [' ', 'g', 'o', 'l', 'd'])] := by
    unfold splitSlash
    rw [show labelBody d c = (toDec d ++ [' ', 'm', ' ']) ++ '/' ::
        (' ' :: (toDec c ++ [' ', 'g', 'o', 'l', 'd'])) from by unfold labelBody; simp]
    rw [splitSlashAux_sep _ _ (by simp +decide [hnd1])]
    rw [splitSlashAux_no _ (by simp +decide [hnd2])]
    simp
  have htrim1 : trimChars (toDec d ++ [' ', 'm', ' ']) = toDec d ++ [' ', 'm'] := by
    have h3 := @trimChars_toDec [] [' '] [' ', 'm'] d 'm' (by simp) (by decide)
      (gl_append rfl) (by decide)
    conv_lhs => rw [show toDec d ++ [' ', 'm', ' '] = [] ++ (toDec d ++ [' ', 'm']) ++ [' ']
      from by simp]
    exact h3
  have htrim2 : trimChars (' ' :: (toDec c ++ [' ', 'g', 'o', 'l', 'd']))
      = toDec c ++ [' ', 'g', 'o', 'l', 'd'] := by
    have h3 := @trimChars_toDec [' '] [] [' ', 'g', 'o', 'l', 'd'] c 'd' (by decide) (by simp)
      (gl_append rfl) (by decide)
    conv_lhs => rw [show ' ' :: (toDec c ++ [' ', 'g', 'o', 'l', 'd'])
      = [' '] ++ (toDec c ++ [' ', 'g', 'o', 'l', 'd']) ++ [] from by simp]
    exact h3
  delta JourneyInfo.from_label
  rw [hsplit]
  simp only [List.map_cons, List.map_nil, htrim1, htrim2]
  simp only [firstWsToken_toDec, parseU32_toDec hd32, parseU32_toDec hc32]

/-- View of an imported edge list with node indices resolved back to node
names (the graph's semantic content, which node renumbering preserves). -/
def resolveEdges (names : List (List Char)) (edges : List (Nat × Nat × JourneyInfo)) :
    List (List Char × List Char × JourneyInfo) :=
  edges.map (fun e => ((names.get? e.1).getD [], (names.get? e.2.1).getD [], e.2.2))

theorem registerNode_spec : ∀ (names : List (List Char)) (nm : List Char),
    ∃ names2 i, registerNode names nm = (names2, i) ∧ i < names2.length ∧
      names2.get? i = some nm ∧ (∃ ext, names2 = names ++ ext) ∧
      names2.toFinset = insert nm names.toFinset := by
  intro names nm
  induction names with
  | nil =>
    exact ⟨[nm], 0, rfl, by simp, rfl, ⟨[nm], rfl⟩, by simp⟩
  | cons x rest ih =>
    by_cases hx : x = nm
    · refine ⟨x :: rest, 0, ?_, by simp, by rw [hx]; rfl, ⟨[], by simp⟩, ?_⟩
      · rw [registerNode, if_pos hx]
      · rw [hx]
        simp
    · obtain ⟨n2, i, heq, hlt, hget, ⟨ext, hext⟩, hfin⟩ := ih
      refine ⟨x :: n2, i + 1, ?_, by simpa using hlt, by simpa using hget,
        ⟨ext, by rw [hext]; rfl⟩, ?_⟩
      · rw [registerNode, if_neg hx, heq]
      · rw [List.toFinset_cons, hfin, List.toFinset_cons, Finset.Insert.comm]

theorem resolveEdges_extend {names ext : List (List Char)}
    {edges : List (Nat × Nat × JourneyInfo)}
    (hb : ∀ e ∈ edges, e.1 < names.length ∧ e.2.1 < names.length) :
    resolveEdges (names ++ ext) edges = resolveEdges names edges := by
  unfold resolveEdges
  apply List.map_congr_left
  intro e he
  obtain ⟨h1, h2⟩ := hb e he
  rw [List.get?_append h1, List.get?_append h2]

theorem resolveEdges_append (names : List (List Char))
    (l1 l2 : List (Nat × Nat × JourneyInfo)) :
    resolveEdges names (l1 ++ l2) = resolveEdges names l1 ++ resolveEdges names l2 := by
  unfold resolveEdges
  rw [List.map_append]

theorem loadDotLoop_cons_none {line : List Char} {rest : List (List Char)}
    {names : List (List Char)} {edges : List (Nat × Nat × JourneyInfo)}
    (hp : parse_edge_line line = none) :
    loadDotLoop (line :: rest) names edges = loadDotLoop rest names edges := by
  rw [loadDotLoop, hp]

theorem loadDotLoop_cons_some {line : List Char} {rest : List (List Char)}
    {names names1 names2 : List (List Char)} {edges : List (Nat × Nat × JourneyInfo)}
    {s t label : List Char} {si ti : Nat}
    (hp : parse_edge_line line = some (s, t, label))
    (hr1 : registerNode names s = (names1, si))
    (hr2 : registerNode names1 t = (names2, ti)) :
    loadDotLoop (line :: rest) names edges
      = (match JourneyInfo.from_label label with
        | none => loadDotLoop rest names2 edges
        | some ji => loadDotLoop rest names2 (edges ++ [(si, ti, ji)])) := by
  rw [loadDotLoop, hp]
  simp only [hr1, hr2]

theorem loadDotLoop_append : ∀ (l1 l2 : List (List Char)) (names : List (List Char))
    (edges : List (Nat × Nat × JourneyInfo)),
    loadDotLoop (l1 ++ l2) names edges
      = loadDotLoop l2 (loadDotLoop l1 names edges).1 (loadDotLoop l1 names edges).2 := by
  intro l1
  induction l1 with
  | nil => intro l2 names edges; rfl
  | cons line rest ih =>
    intro l2 names edges
    rw [List.cons_append]
    cases hp : parse_edge_line line with
    | none =>
      rw [loadDotLoop_cons_none hp, loadDotLoop_cons_none hp]
      exact ih l2 names edges
    | some v =>
      obtain ⟨s, t, label⟩ := v
      rcases hr1 : registerNode names s with ⟨names1, si⟩
      rcases hr2 : registerNode names1 t with ⟨names2, ti⟩
      rw [loadDotLoop_cons_some hp hr1 hr2, loadDotLoop_cons_some hp hr1 hr2]
      cases hj : JourneyInfo.from_label label with
      | none => exact ih l2 names2 edges
      | some ji => exact ih l2 names2 (edges ++ [(si, ti, ji)])

theorem loadDotLoop_format :
    ∀ (es : List (List Char × List Char × JourneyInfo)) (names0 : List (List Char))
      (edges0 : List (Nat × Nat × JourneyInfo)),
      (∀ e ∈ es, GoodName e.1 ∧ GoodName e.2.1 ∧ e.2.2.distance < 2 ^ 32 ∧
        e.2.2.cost < 2 ^ 32) →
      (∀ e ∈ edges0, e.1 < names0.length ∧ e.2.1 < names0.length) →
      ∃ namesF edgesF,
        loadDotLoop (es.map (fun e => formatEdgeLine e.1 e.2.1 e.2.2.distance e.2.2.cost))
            names0 edges0 = (namesF, edgesF) ∧
        (∃ ext, namesF = names0 ++ ext) ∧
        namesF.toFinset = names0.toFinset ∪ (es.flatMap (fun e => [e.1, e.2.1])).toFinset ∧
        (∀ e ∈ edgesF, e.1 < namesF.length ∧ e.2.1 < namesF.length) ∧
        resolveEdges namesF edgesF
          = resolveEdges names0 edges0 ++ es.map (fun e => (e.1, e.2.1, e.2.2)) := by
  intro es
  induction es with
  | nil =>
    intro names0 edges0 _ hb
    exact ⟨names0, edges0, rfl, ⟨[], by simp⟩, by simp, hb, by simp⟩
  | cons e es' ih =>
    intro names0 edges0 hgood hb
    obtain ⟨hgs, hgt, hd32, hc32⟩ := hgood e (List.mem_cons_self _ _)
    obtain ⟨names1, si, hr1, hlt1, hget1, ⟨ext1, hext1⟩, hfin1⟩ :=
      registerNode_spec names0 e.1
    obtain ⟨names2, ti, hr2, hlt2, hget2, ⟨ext2, hext2⟩, hfin2⟩ :=
      registerNode_spec names1 e.2.1
    have hlen01 : names0.length ≤ names1.length := by
      rw [hext1]; simp
    have hlen12 : names1.length ≤ names2.length := by
      rw [hext2]; simp
    have hb2 : ∀ x ∈ edges0 ++ [(si, ti, e.2.2)],
        x.1 < names2.length ∧ x.2.1 < names2.length := by
      intro x hx
      rcases List.mem_append.mp hx with hx | hx
      · obtain ⟨h1, h2⟩ := hb x hx
        exact ⟨by omega, by omega⟩
      · rw [List.mem_singleton.mp hx]
        exact ⟨by omega, hlt2⟩
    obtain ⟨namesF, edgesF, heq, ⟨ext3, hext3⟩, hfin, hbF, hres⟩ :=
      ih names2 (edges0 ++ [(si, ti, e.2.2)])
        (fun x hx => hgood x (List.mem_cons_of_mem _ hx)) hb2
    refine ⟨namesF, edgesF, ?_, ?_, ?_, hbF, ?_⟩
    · rw [List.map_cons]
      rw [loadDotLoop_cons_some (parse_edge_line_format hgs hgt _ _) hr1 hr2]
      rw [from_label_format hd32 hc32]
      exact heq
    · exact ⟨ext1 ++ ext2 ++ ext3, by rw [hext3, hext2, hext1]; simp⟩
    · rw [hfin, hfin2, hfin1, List.flatMap_cons]
      ext x
      simp only [Finset.mem_union, Finset.mem_insert, List.mem_toFinset, List.mem_append,
        List.mem_cons, List.mem_singleton, List.not_mem_nil, or_false]
      tauto
    · rw [hres, resolveEdges_append]
      have hr0 : resolveEdges names2 edges0 = resolveEdges names0 edges0 := by
        rw [hext2, hext1, List.append_assoc]
        exact resolveEdges_extend hb
      rw [hr0]
      have hone : resolveEdges names2 [(si, ti, e.2.2)] = [(e.1, e.2.1, e.2.2)] := by
        unfold resolveEdges
        rw [List.map_cons, List.map_nil]
        have hg1 : names2.get? si = some e.1 := by
          rw [hext2]
          rw [List.get?_append hlt1]
          exact hget1
        rw [hg1, hget2]
        rfl
      rw [hone, List.map_cons, List.append_assoc]
      rfl

theorem flatMap_line {α : Type} (f : α → List Char) : ∀ (l : List α),
    (l.map f).flatMap (fun x => x ++ ['\n']) = l.flatMap (fun x => f x ++ ['\n']) := by
  intro l
  induction l with
  | nil => rfl
  | cons a l ih => simp [ih]

theorem save_graph_lines (g : TownGraph) :
    save_graph g = ("graph Towns \x7b".toList :: (g.edges.map (fun e =>
        formatEdgeLine (((g.nodes.get? e.1).map (fun t => t.name.toList)).getD [])
          (((g.nodes.get? e.2.1).map (fun t => t.name.toList)).getD [])
          e.2.2.distance e.2.2.cost) ++ ["\x7d".toList])).flatMap (fun l => l ++ ['\n']) := by
  unfold save_graph
  rw [List.flatMap_cons, List.flatMap_append, flatMap_line]
  have h1 : "graph Towns \x7b".toList ++ ['\n'] = "graph Towns \x7b\n".toList := rfl
  have h2 : (["\x7d".toList] : List (List Char)).flatMap (fun l => l ++ ['\n'])
      = "\x7d\n".toList := rfl
  rw [h1, h2]
  simp [List.append_assoc]

theorem formatEdgeLine_no_nl {s t : List Char} (hs : GoodName s) (ht : GoodName t)
    (d c : Nat) : '\n' ∉ formatEdgeLine s t d c := by
  obtain ⟨-, -, hsn, -, -⟩ := hs
  obtain ⟨-, -, htn, -, -⟩ := ht
  have h1 : '\n' ∉ toDec d := not_mem_toDec (by decide)
  have h2 : '\n' ∉ toDec c := not_mem_toDec (by decide)
  have h3 : '\n' ∉ toDec (d / 10) := not_mem_toDec (by decide)
  rw [formatEdgeLine_shape]
  simp +decide [coreOf, talOf, lineTail, labelBody, hsn, htn, h1, h2, h3]

theorem formatEdgeLine_getLast {s t : List Char} (d c : Nat) :
    (formatEdgeLine s t d c).getLast? = some ';' := by
  rw [formatEdgeLine_shape]
  apply gl_cons
  apply gl_cons
  apply gl_cons
  apply gl_cons
  exact coreOf_getLast

theorem splitLines_save (g : TownGraph)
    (hn : ∀ e ∈ g.edges,
      GoodName (((g.nodes.get? e.1).map (fun t => t.name.toList)).getD []) ∧
      GoodName (((g.nodes.get? e.2.1).map (fun t => t.name.toList)).getD [])) :
    splitLines (save_graph g) = "graph Towns \x7b".toList :: (g.edges.map (fun e =>
        formatEdgeLine (((g.nodes.get? e.1).map (fun t => t.name.toList)).getD [])
          (((g.nodes.get? e.2.1).map (fun t => t.name.toList)).getD [])
          e.2.2.distance e.2.2.cost) ++ ["\x7d".toList]) := by
  rw [save_graph_lines]
  apply splitLines_build
  intro l hl
  rcases List.mem_cons.mp hl with rfl | hl
  · exact ⟨by decide, by decide⟩
  rcases List.mem_append.mp hl with hl | hl
  · obtain ⟨e, he, rfl⟩ := List.mem_map.mp hl
    obtain ⟨h1, h2⟩ := hn e he
    exact ⟨formatEdgeLine_no_nl h1 h2 _ _, by rw [formatEdgeLine_getLast]; simp⟩
  · rw [List.mem_singleton.mp hl]
    exact ⟨by decide, by decide⟩

theorem header_parse_none : parse_edge_line ("graph Towns \x7b".toList) = none := rfl

theorem footer_parse_none : parse_edge_line ("\x7d".toList) = none := rfl

theorem name_at_get {g : TownGraph} {i : Nat} (hi : i < g.nodes.length) :
    ((g.nodes.get? i).map (fun t => t.name.toList)).getD []
      = (g.nodes.get ⟨i, hi⟩).name.toList := by
  rw [List.get?_eq_get hi]
  rfl

/-- C6 (amended): exporting a graph in which every town is incident to at
least one edge, whose names avoid the format's delimiter characters, whose
edge endpoints are valid indices and whose distances and costs are
`u32`-sized, then re-importing the text, yields the same set of town
names, and the edge list resolved through the imported name table matches
the original edge list name-for-name with identical distance and cost. -/
theorem c6_round_trip (g : TownGraph)
    (hnames : ∀ t ∈ g.nodes, GoodName t.name.toList)
    (hdc : ∀ e ∈ g.edges, e.2.2.distance < 2 ^ 32 ∧ e.2.2.cost < 2 ^ 32)
    (hidx : ∀ e ∈ g.edges, e.1 < g.nodes.length ∧ e.2.1 < g.nodes.length)
    (hcov : ∀ i, i < g.nodes.length → ∃ e ∈ g.edges, i = e.1 ∨ i = e.2.1) :
    ∃ names edges2, load_dot (save_graph g) = (names, edges2) ∧
      names.toFinset = (g.nodes.map (fun t => t.name.toList)).toFinset ∧
      resolveEdges names edges2 = g.edges.map (fun e =>
        (((g.nodes.get? e.1).map (fun t => t.name.toList)).getD [],
          ((g.nodes.get? e.2.1).map (fun t => t.name.toList)).getD [], e.2.2)) := by
  have hgood : ∀ x ∈ g.edges.map (fun e =>
      (((g.nodes.get? e.1).map (fun t => t.name.toList)).getD [],
        ((g.nodes.get? e.2.1).map (fun t => t.name.toList)).getD [], e.2.2)),
      GoodName x.1 ∧ GoodName x.2.1 ∧ x.2.2.distance < 2 ^ 32 ∧ x.2.2.cost < 2 ^ 32 := by
    intro x hx
    obtain ⟨e, he, rfl⟩ := List.mem_map.mp hx
    obtain ⟨h1, h2⟩ := hidx e he
    obtain ⟨hd1, hd2⟩ := hdc e he
    refine ⟨?_, ?_, hd1, hd2⟩
    · rw [show (((g.nodes.get? e.1).map (fun t => t.name.toList)).getD [],
          ((g.nodes.get? e.2.1).map (fun t => t.name.toList)).getD [], e.2.2).1
        = ((g.nodes.get? e.1).map (fun t => t.name.toList)).getD [] from rfl]
      rw [name_at_get h1]
      exact hnames _ (List.get_mem _ _ _)
    · rw [show (((g.nodes.get? e.1).map (fun t => t.name.toList)).getD [],
          ((g.nodes.get? e.2.1).map (fun t => t.name.toList)).getD [], e.2.2).2.1
        = ((g.nodes.get? e.2.1).map (fun t => t.name.toList)).getD [] from rfl]
      rw [name_at_get h2]
      exact hnames _ (List.get_mem _ _ _)
  obtain ⟨namesF, edgesF, heq, -, hfin, -, hres⟩ :=
    loadDotLoop_format (g.edges.map (fun e =>
      (((g.nodes.get? e.1).map (fun t => t.name.toList)).getD [],
        ((g.nodes.get? e.2.1).map (fun t => t.name.toList)).getD [], e.2.2))) [] []
      hgood (by simp)
  refine ⟨namesF, edgesF, ?_, ?_, ?_⟩
  · unfold load_dot
    rw [splitLines_save g (fun e he =>
      ⟨(hgood _ (List.mem_map_of_mem _ he)).1, (hgood _ (List.mem_map_of_mem _ he)).2.1⟩)]
    rw [loadDotLoop_cons_none header_parse_none]
    rw [show g.edges.map (fun e =>
        formatEdgeLine (((g.nodes.get? e.1).map (fun t => t.name.toList)).getD [])
          (((g.nodes.get? e.2.1).map (fun t => t.name.toList)).getD [])
          e.2.2.distance e.2.2.cost)
      = (g.edges.map (fun e =>
          (((g.nodes.get? e.1).map (fun t => t.name.toList)).getD [],
            ((g.nodes.get? e.2.1).map (fun t => t.name.toList)).getD [], e.2.2))).map
        (fun x => formatEdgeLine x.1 x.2.1 x.2.2.distance x.2.2.cost) from by
      rw [List.map_map]
      rfl]
    rw [loadDotLoop_append, heq]
    rw [loadDotLoop_cons_none footer_parse_none]
    rfl
  · rw [hfin, List.toFinset_nil, Finset.empty_union]
    ext x
    simp only [List.mem_toFinset, List.mem_flatMap, List.mem_map]
    constructor
    · rintro ⟨y, ⟨e, he, rfl⟩, hxy⟩
      simp only [List.mem_cons, List.mem_singleton, List.not_mem_nil, or_false] at hxy
      obtain ⟨h1, h2⟩ := hidx e he
      rcases hxy with rfl | rfl
      · exact ⟨g.nodes.get ⟨e.1, h1⟩, List.get_mem _ _ _, (name_at_get h1).symm⟩
      · exact ⟨g.nodes.get ⟨e.2.1, h2⟩, List.get_mem _ _ _, (name_at_get h2).symm⟩
    · rintro ⟨tw, htw, rfl⟩
      obtain ⟨i, hget⟩ := List.mem_iff_get.mp htw
      obtain ⟨e, he, hor⟩ := hcov i.1 i.2
      refine ⟨(((g.nodes.get? e.1).map (fun t => t.name.toList)).getD [],
        ((g.nodes.get? e.2.1).map (fun t => t.name.toList)).getD [], e.2.2),
        ⟨e, he, rfl⟩, ?_⟩
      simp only [List.mem_cons, List.mem_singleton, List.not_mem_nil, or_false]
      rcases hor with h | h
      · left
        rw [← h, name_at_get i.2]
        exact (congrArg (fun tw2 => tw2.name.toList) hget).symm
      · right
        rw [← h, name_at_get i.2]
        exact (congrArg (fun tw2 => tw2.name.toList) hget).symm
  · rw [hres]
    simp only [List.nil_append, List.map_map]
    rw [show resolveEdges ([] : List (List Char)) [] = [] from rfl]
    rfl

/-- A two-town, one-edge graph matching the spec's round-trip example. -/
def c6g : TownGraph :=
  ⟨[⟨0, "Alderwood", (0, 0), 0, []⟩, ⟨1, "Brightfen", (0, 0), 0, []⟩],
    [(0, 1, ⟨30, 150⟩)]⟩

/-- A one-town, zero-edge graph: the town is incident to no edge. -/
def c6iso : TownGraph := ⟨[⟨0, "Alderwood", (0, 0), 0, []⟩], []⟩

/-- C6: the claimed round trip fails for a graph with an isolated town —
`save_graph` writes only edge lines, so a town incident to no edge is
absent from the name set `load_dot` re-imports. -/
theorem c6_counterexample :
    (load_dot (save_graph c6iso)).1.toFinset
      ≠ (c6iso.nodes.map (fun t => t.name.toList)).toFinset := by
  decide

/-- Witness for the amended round trip at the spec's example: towns
Alderwood and Brightfen with one edge of distance 30 and cost 150
round-trip exactly. -/
theorem c6_round_trip_witness :
    ∃ names edges2, load_dot (save_graph c6g) = (names, edges2) ∧
      names.toFinset = (c6g.nodes.map (fun t => t.name.toList)).toFinset ∧
      resolveEdges names edges2 = c6g.edges.map (fun e =>
        (((c6g.nodes.get? e.1).map (fun t => t.name.toList)).getD [],
          ((c6g.nodes.get? e.2.1).map (fun t => t.name.toList)).getD [], e.2.2)) :=
  c6_round_trip c6g (by decide) (by decide) (by decide)
    (by
      intro i hi
      refine ⟨(0, 1, ⟨30, 150⟩), by decide, ?_⟩
      have : i = 0 ∨ i = 1 := by
        have : i < 2 := hi
        omega
      rcases this with rfl | rfl
      · exact Or.inl rfl
      · exact Or.inr rfl)
